import Mathlib

/-!
# MiniGit: a shallow embedding of `DSAMinigit/MiniGit.cpp`

The C++ class `MiniGit` keeps two fields in memory (`stagedFiles`, `headHash`) and
everything else on disk under `.minigit/`.  The embedding below passes both explicitly:

* the disk is a map from path strings to what `std::ifstream` reads at that path (`FS`):
  the bytes of a file, and nothing for a directory, which `std::ifstream` opens and
  reads as empty; two paths are the same file when they are the same string; a name
  with `.` or `..` components is resolved where the program appends an unchecked name
  to a directory and opens the result for output (`branch`, through `normalize`), and
  the statements about runs of operations are about names and paths in canonical form
  (`Canonical`), for which different strings are different files (links apart);
* a `std::string` is a Lean `String`, one `Char` standing for one byte;
* `size_t` arithmetic is arithmetic modulo `2 ^ 64`;
* what the program prints is kept as the list of the pieces sent to `std::cout` and
  `std::cerr`, one piece for each output statement;
* `std::hash<std::string>` and the success of opening a file for output come from the
  environment (`Env`); `std::time(nullptr)` is an argument of `commit` and `merge`;
* an exception that leaves an operation is the outcome `threw`, which carries the state
  at the moment of the throw (stream output is taken to reach the disk as it is sent).
-/

namespace MiniGit

/-! ## Data model -/

/-- The file system: the content of every path that can be opened for input. -/
abbrev FS := String → Option String

/-- The file system after `path` has been given the content `content`. -/
def FS.write (fs : FS) (path content : String) : FS :=
  fun p => if p = path then some content else fs p

/-- What the program takes from its platform: `std::hash<std::string>` and whether
`std::ofstream` manages to open a path. -/
structure Env where
  strHash : String → Nat
  canOpen : String → Bool

/-- The struct `Commit` of `MiniGit.hpp`. -/
structure Commit where
  hash : String
  message : String
  timestamp : Int
  stagedFiles : List String
  parentHash : String

/-- The private fields of the class `MiniGit`, the disk, and the two output streams.
`stagedFiles` is a `std::unordered_set`: a duplicate-free list, whose order stands for
the order in which the set is iterated, which the C++ standard leaves open (here the
path staged last comes first; no statement below rests on the place that a newly staged
path gets among the others). -/
structure State where
  fs : FS
  stagedFiles : List String
  headHash : String
  cout : List String
  cerr : List String

/-- How an operation that may raise `std::runtime_error` ends. -/
inductive Outcome where
  | returned (s : State)
  | threw (s : State) (what : String)

/-- The state an outcome ends in. -/
def Outcome.state : Outcome → State
  | .returned s => s
  | .threw s _ => s

/-- Whether the operation came back to its caller. -/
def Outcome.isReturned : Outcome → Bool
  | .returned _ => true
  | .threw _ _ => false

def repoPath : String := ".minigit"

def objectsPath : String := ".minigit/objects"

def commitsPath : String := ".minigit/commits"

/-- The path `repoPath + "/HEAD"`. -/
def headPath : String := repoPath ++ "/HEAD"

/-- The path `repoPath + "/refs/" + name`. -/
def refPath (name : String) : String := repoPath ++ "/refs/" ++ name

/-- The path `objectsPath + "/" + hash`. -/
def blobPath (hash : String) : String := objectsPath ++ "/" ++ hash

/-- The path `commitsPath + "/" + hash`. -/
def commitPath (hash : String) : String := commitsPath ++ "/" ++ hash

/-- Addition of two `size_t` values. -/
def addSize (a b : Nat) : Nat := (a + b) % 2 ^ 64

/-- The components of a path: the pieces between its slashes. -/
def components : List Char → List (List Char)
  | [] => [[]]
  | c :: cs =>
    if c = '/' then [] :: components cs
    else
      match components cs with
      | [] => [[c]]
      | comp :: rest => (c :: comp) :: rest

/-- The components of a path put together again, a slash between two of them. -/
def joinSlash : List (List Char) → List Char
  | [] => []
  | comp :: [] => comp
  | comp :: next :: rest => comp ++ '/' :: joinSlash (next :: rest)

/-- The resolution of the components of a relative path, as the operating system walks
them: an empty component and `.` stay where they are, `..` goes back to the directory
above (and is kept where the path leaves the working directory), a name goes down.
`stack` holds the components walked so far, the last one first. -/
def resolveDots : List (List Char) → List (List Char) → List (List Char)
  | stack, [] => stack.reverse
  | stack, comp :: rest =>
    if comp = [] ∨ comp = ['.'] then resolveDots stack rest
    else if comp = ['.', '.'] then
      match stack with
      | [] => resolveDots [comp] rest
      | top :: below =>
        if top = ['.', '.'] then resolveDots (comp :: stack) rest
        else resolveDots below rest
    else resolveDots (comp :: stack) rest

/-- The file a relative path leads to, as a path without empty, `.` and `..`
components. -/
def normalize (path : String) : String :=
  String.mk (joinSlash (resolveDots [] (components path.data)))

/-- Sending a line to `std::cout`. -/
def State.print (s : State) (text : String) : State :=
  { s with cout := s.cout ++ [text] }

/-- Sending a line to `std::cerr`. -/
def State.printErr (s : State) (text : String) : State :=
  { s with cerr := s.cerr ++ [text] }

/-- `std::ofstream out(path); if (out) out << content;` on the disk alone. -/
def State.writeFile (s : State) (path content : String) : State :=
  { s with fs := s.fs.write path content }

/-- A freshly constructed `MiniGit` object over the disk `fs`. -/
def fresh (fs : FS) : State :=
  { fs := fs, stagedFiles := [], headHash := "", cout := [], cerr := [] }

/-! ## Reading lines -/

/-- The lines `std::getline` returns one after the other until it fails. -/
def splitLines : List Char → List (List Char)
  | [] => []
  | c :: cs =>
    if c = '\n' then [] :: splitLines cs
    else
      match splitLines cs with
      | [] => [[c]]
      | l :: ls => (c :: l) :: ls

/-- The lines of a text, as a `while (std::getline(in, line))` loop sees them. -/
def getlines (text : String) : List String :=
  (splitLines text.data).map String.mk

/-- The first `std::getline` on a text; the empty string when it fails. -/
def firstLine (text : String) : String :=
  (getlines text).headD ""

/-! ## Hashing -/

/-- `MiniGit::computeHash`: the sum of the bytes, in decimal. -/
def computeHash (content : String) : String :=
  toString (content.data.foldl (fun sum c => addSize sum (c.toNat % 256)) 0)

/-- The number `MiniGit::generateCommitHash` prints. -/
def commitSum (env : Env) (commit : Commit) : Nat :=
  commit.stagedFiles.foldl (fun sum file => addSize sum (env.strHash file))
    (addSize (addSize 0 (env.strHash commit.message)) (commit.timestamp % 2 ^ 64).toNat)

/-- `MiniGit::generateCommitHash`. -/
def generateCommitHash (env : Env) (commit : Commit) : String :=
  toString (commitSum env commit)

/-! ## Operations -/

/-- `MiniGit::createDirectory`: a path at which nothing exists yet becomes a directory
and is reported (`create_directories` is taken to succeed).  From then on
`std::ifstream` opens the directory and reads nothing from it; the directory is entered
under its name and under its name followed by a slash, the two spellings the program
itself can build (`refs/` is the ref path of the empty branch name). -/
def createDirectory (s : State) (path : String) : State :=
  if (s.fs path).isNone then
    ((s.writeFile path "").writeFile (path ++ "/") "").print ("Created: " ++ path ++ "\n")
  else s

/-- `MiniGit::init`. -/
def init (env : Env) (s : State) : State :=
  let s := s.print "Initializing MiniGit Repository...\n"
  let s := createDirectory s repoPath
  let s := createDirectory s objectsPath
  let s := createDirectory s (repoPath ++ "/refs")
  let s := createDirectory s commitsPath
  if env.canOpen headPath then
    (s.writeFile headPath "ref: refs/master\n").print "Initialized HEAD to master branch.\n"
  else
    s.printErr "Failed to write HEAD file.\n"

/-- `MiniGit::readFile`: the content, or the message of the exception. -/
def readFile (fs : FS) (filename : String) : Except String String :=
  match fs filename with
  | some content => .ok content
  | none => .error ("File not found: " ++ filename)

/-- `MiniGit::writeBlob`. -/
def writeBlob (env : Env) (s : State) (hash content : String) : State :=
  let path := blobPath hash
  if env.canOpen path then
    (s.writeFile path content).print ("Saved blob: " ++ path ++ "\n")
  else
    s.printErr "Failed to write blob file.\n"

/-- `stagedFiles.insert(file)`; a new path is put in front (see `State`). -/
def insertStaged (file : String) (staged : List String) : List String :=
  if file ∈ staged then staged else file :: staged

/-- `MiniGit::add`. -/
def add (env : Env) (s : State) (filename : String) : State :=
  match readFile s.fs filename with
  | .error what => s.printErr ("Add failed: " ++ what ++ "\n")
  | .ok content =>
    let hash := computeHash content
    if filename ∉ s.stagedFiles then
      let s := { s with stagedFiles := insertStaged filename s.stagedFiles }
      let s := writeBlob env s hash content
      s.print ("Staged: " ++ filename ++ "\n")
    else
      s.print (filename ++ " is already staged.\n")

/-- The lines `saveCommit` writes after `Files:`. -/
def filesText : List String → String
  | [] => ""
  | f :: rest => f ++ "\n" ++ filesText rest

/-- The text `MiniGit::saveCommit` writes to the record of a commit. -/
def commitRecord (commit : Commit) : String :=
  "Message: " ++ commit.message ++ "\n" ++
  "Timestamp: " ++ toString commit.timestamp ++ "\n" ++
  "Parent: " ++ commit.parentHash ++ "\n" ++
  "Files:\n" ++ filesText commit.stagedFiles

/-- `MiniGit::saveCommit`. -/
def saveCommit (env : Env) (s : State) (commit : Commit) : State :=
  let path := commitPath commit.hash
  let s :=
    if env.canOpen path then s.writeFile path (commitRecord commit)
    else s.printErr "Failed to save commit.\n"
  if env.canOpen headPath then s.writeFile headPath ("ref: " ++ commit.hash ++ "\n")
  else s

/-- The `Commit` that `MiniGit::commit` builds, with its hash. -/
def newCommit (env : Env) (s : State) (message : String) (now : Int) : Commit :=
  let commit : Commit :=
    { hash := "", message := message, timestamp := now,
      stagedFiles := s.stagedFiles, parentHash := s.headHash }
  { commit with hash := generateCommitHash env commit }

/-- `MiniGit::commit`; `now` is the value of `std::time(nullptr)`. -/
def commit (env : Env) (s : State) (message : String) (now : Int) : State :=
  if s.stagedFiles.isEmpty then
    s.print "No changes to commit.\n"
  else
    let commit := newCommit env s message now
    let s := saveCommit env s commit
    let s := { s with headHash := commit.hash, stagedFiles := [] }
    s.print ("Committed with hash: " ++ commit.hash ++ "\n")

/-- `MiniGit::branch`.  The name is not checked: the file that `std::ofstream` opens is
the one the path `refs/<name>` leads to, which lies outside `refs/` for a name such as
`../commits/<hash>`. -/
def branch (env : Env) (s : State) (name : String) : State :=
  if s.headHash = "" then
    s.print "No commits to branch from.\n"
  else if env.canOpen (refPath name) then
    (s.writeFile (normalize (refPath name)) s.headHash).print
      ("Created branch \x27" ++ name ++ "\x27 pointing to " ++ s.headHash ++ "\n")
  else
    s.printErr "Failed to create branch.\n"

/-- The loop of `MiniGit::checkout` that collects the paths of a commit record. -/
def checkoutFiles : Bool → List String → List String
  | _, [] => []
  | fileSection, line :: rest =>
    if line = "Files:" then checkoutFiles true rest
    else if fileSection && line ≠ "" then line :: checkoutFiles fileSection rest
    else checkoutFiles fileSection rest

/-- The loop of `MiniGit::checkout` that rewrites the files of the commit. -/
def restoreFiles (env : Env) : List String → State → Outcome
  | [], s => .returned s
  | file :: rest, s =>
    match readFile s.fs file with
    | .error what => .threw s what
    | .ok current =>
      match readFile s.fs (blobPath (computeHash current)) with
      | .error what => .threw s what
      | .ok content =>
        if env.canOpen file then
          restoreFiles env rest ((s.writeFile file content).print ("Restored: " ++ file ++ "\n"))
        else
          restoreFiles env rest s

/-- `MiniGit::checkout`. -/
def checkout (env : Env) (s : State) (branchName : String) : Outcome :=
  match s.fs (refPath branchName) with
  | none => .returned (s.printErr ("Branch not found: " ++ branchName ++ "\n"))
  | some refText =>
    let commitHash := firstLine refText
    match s.fs (commitPath commitHash) with
    | none => .returned (s.printErr ("Commit not found: " ++ commitHash ++ "\n"))
    | some record =>
      let files := checkoutFiles false (getlines record)
      match restoreFiles env files s with
      | .threw s what => .threw s what
      | .returned s =>
        let s :=
          if env.canOpen headPath then s.writeFile headPath ("ref: refs/" ++ branchName ++ "\n")
          else s
        let s := { s with headHash := commitHash }
        .returned (s.print ("Switched to branch: " ++ branchName ++ "\n"))

/-- The loop of `MiniGit::merge` that collects the lines after `Files:`. -/
def mergeFiles : Bool → List String → List String
  | _, [] => []
  | inFiles, line :: rest =>
    if line = "Files:" then mergeFiles true rest
    else if inFiles then line :: mergeFiles inFiles rest
    else mergeFiles inFiles rest

/-- `out << text` on a stream opened on `path`; nothing happens when the stream
failed to open. -/
def State.send (s : State) (isOpen : Bool) (path text : String) : State :=
  if isOpen then s.writeFile path ((s.fs path).getD "" ++ text) else s

/-- One turn of the loop of `MiniGit::merge` over the files of the target commit,
up to and without `stagedFiles.insert(file)`. -/
def mergeFile (env : Env) (s : State) (file : String) : Outcome :=
  if (s.fs file).isSome then
    let s := s.print ("CONFLICT: both modified " ++ file ++ "\n")
    let out := file ++ ".conflict"
    let isOpen := env.canOpen out
    let s := if isOpen then s.writeFile out "" else s
    let s := s.send isOpen out "<<<<<<< HEAD\n"
    match readFile s.fs file with
    | .error what => .threw s what
    | .ok mine =>
      let s := s.send isOpen out (mine ++ "\n=======\n")
      match readFile s.fs file with
      | .error what => .threw s what
      | .ok current =>
        match readFile s.fs (blobPath (computeHash current)) with
        | .error what => .threw s what
        | .ok theirs =>
          let s := s.send isOpen out (theirs ++ "\n>>>>>>>\n")
          .returned (s.print ("Conflict written to " ++ file ++ ".conflict\n"))
  else
    match readFile s.fs file with
    | .error what => .threw s what
    | .ok current =>
      match readFile s.fs (blobPath (computeHash current)) with
      | .error what => .threw s what
      | .ok content =>
        let s := if env.canOpen file then s.writeFile file content else s
        .returned (s.print ("Merged: " ++ file ++ "\n"))

/-- The loop of `MiniGit::merge` over the files of the target commit. -/
def mergeLoop (env : Env) : List String → State → Outcome
  | [], s => .returned s
  | file :: rest, s =>
    match mergeFile env s file with
    | .threw s what => .threw s what
    | .returned s =>
      mergeLoop env rest { s with stagedFiles := insertStaged file s.stagedFiles }

/-- `MiniGit::merge`; `now` is the value of `std::time(nullptr)` in the commit it makes. -/
def merge (env : Env) (s : State) (branchName : String) (now : Int) : Outcome :=
  match s.fs (refPath branchName) with
  | none => .returned (s.printErr ("Branch not found: " ++ branchName ++ "\n"))
  | some refText =>
    let targetHash := firstLine refText
    match s.fs (commitPath targetHash) with
    | none => .returned (s.printErr "Target commit not found.\n")
    | some record =>
      let targetFiles := mergeFiles false (getlines record)
      match mergeLoop env targetFiles s with
      | .threw s what => .threw s what
      | .returned s => .returned (commit env s ("Merged branch: " ++ branchName) now)

/-- One turn of the inner loop of `MiniGit::log`: the value of `parentHash` after
`line` has been read. -/
def logParentStep (parentHash line : String) : String :=
  if "Parent:".data.isPrefixOf line.data then
    String.mk ((line.data.drop 7).dropWhile (fun c => c = ' ' || c = '\t'))
  else parentHash

/-- The value of `parentHash` when the inner loop of `MiniGit::log` has read a record. -/
def logParent (record : String) : String :=
  (getlines record).foldl logParentStep ""

/-- The outer loop of `MiniGit::log`, run for at most `fuel` commits; `none` when the
loop is still running after that many. -/
def logLoop : Nat → State → String → Option State
  | 0, s, currentHash => if currentHash = "" then some s else none
  | fuel + 1, s, currentHash =>
    if currentHash = "" then some s
    else
      match s.fs (commitPath currentHash) with
      | none => some (s.printErr ("Failed to read commit: " ++ currentHash ++ "\n"))
      | some record =>
        let s := s.print ("\n=== Commit " ++ currentHash ++ " ===\n")
        let s := (getlines record).foldl (fun s line => s.print (line ++ "\n")) s
        logLoop fuel s (logParent record)

/-- `MiniGit::log`, with a bound on the number of commits it visits. -/
def log (fuel : Nat) (s : State) : Option State :=
  if s.headHash = "" then some (s.print "No commits yet.\n")
  else logLoop fuel s s.headHash

/-- The order `std::less<std::string>` on the bytes of two strings. -/
def lexLt : List Char → List Char → Bool
  | _, [] => false
  | [], _ :: _ => true
  | a :: as, b :: bs =>
    if a.toNat < b.toNat then true
    else if b.toNat < a.toNat then false
    else lexLt as bs

/-- `files.insert(line)` on a `std::set<std::string>`, kept as a sorted list. -/
def setInsert (x : String) : List String → List String
  | [] => [x]
  | y :: ys =>
    if lexLt x.data y.data then x :: y :: ys
    else if x = y then y :: ys
    else y :: setInsert x ys

/-- The lambda `extractFiles` of `MiniGit::diff`, started with the set `files`. -/
def extractFiles : Bool → List String → List String → List String
  | _, [], files => files
  | inFiles, line :: rest, files =>
    if line = "Files:" then extractFiles true rest files
    else if inFiles && line ≠ "" then extractFiles inFiles rest (setInsert line files)
    else extractFiles inFiles rest files

/-- The three `while` loops of `MiniGit::diff` on the lines of the two contents. -/
def diffLines : List String → List String → List String
  | line1 :: rest1, line2 :: rest2 =>
    (if line1 ≠ line2 then ["- " ++ line1 ++ "\n", "+ " ++ line2 ++ "\n"] else []) ++
      diffLines rest1 rest2
  | _ :: rest1, [] => rest1.map (fun line1 => "- " ++ line1 ++ "\n")
  | [], rest2 => rest2.map (fun line2 => "+ " ++ line2 ++ "\n")

/-- The loop of `MiniGit::diff` over `allFiles`. -/
def diffLoop (files1 files2 : List String) : List String → State → Outcome
  | [], s => .returned s
  | file :: rest, s =>
    let in1 := decide (file ∈ files1)
    let in2 := decide (file ∈ files2)
    let s := s.print ("\n=== File: " ++ file ++ " ===\n")
    if in1 && !in2 then
      diffLoop files1 files2 rest (s.print "- File removed in commit2\n")
    else if !in1 && in2 then
      diffLoop files1 files2 rest (s.print "+ File added in commit2\n")
    else
      match readFile s.fs file with
      | .error what => .threw s what
      | .ok content1 =>
        match readFile s.fs file with
        | .error what => .threw s what
        | .ok content2 =>
          diffLoop files1 files2 rest
            { s with cout := s.cout ++ diffLines (getlines content1) (getlines content2) }

/-- `MiniGit::diff`. -/
def diff (s : State) (hash1 hash2 : String) : Outcome :=
  match s.fs (commitPath hash1), s.fs (commitPath hash2) with
  | some record1, some record2 =>
    let files1 := extractFiles false (getlines record1) []
    let files2 := extractFiles false (getlines record2) []
    let allFiles := files2.foldl (fun all f => setInsert f all)
      (files1.foldl (fun all f => setInsert f all) [])
    diffLoop files1 files2 allFiles s
  | _, _ => .returned (s.printErr "One or both commit hashes are invalid.\n")

/-! ## Sequences of operations -/

/-- A call of one of the public operations that change the repository. -/
inductive Op where
  | add (filename : String)
  | commit (message : String) (now : Int)
  | branch (name : String)
  | checkout (branchName : String)
  | merge (branchName : String) (now : Int)

/-- The outcome of one call. -/
def step (env : Env) (s : State) : Op → Outcome
  | .add filename => .returned (add env s filename)
  | .commit message now => .returned (commit env s message now)
  | .branch name => .returned (branch env s name)
  | .checkout branchName => checkout env s branchName
  | .merge branchName now => merge env s branchName now

/-- The outcome of a sequence of calls; an exception ends the run. -/
def run (env : Env) : State → List Op → Outcome
  | s, [] => .returned s
  | s, op :: ops =>
    match step env s op with
    | .threw s what => .threw s what
    | .returned s => run env s ops

/-! ## Predicates used in the statements -/

/-- A non-empty string of decimal digits. -/
def IsDecimal (s : String) : Prop := s.data ≠ [] ∧ ∀ c ∈ s.data, c.isDigit = true

/-- A string without a line break. -/
def NoNL (s : String) : Prop := '\n' ∉ s.data

/-- A path inside the repository directory `.minigit/`. -/
def InRepo (p : String) : Prop := ".minigit/".data.isPrefixOf p.data = true

/-- A name or a relative path in canonical form: no component between its slashes is
empty, `.` or `..`; such a path is not empty and neither starts nor ends with a slash.
Two canonical paths are the same file exactly when they are the same string. -/
def Canonical (p : String) : Prop :=
  ∀ comp ∈ components p.data, comp ≠ [] ∧ comp ≠ ['.'] ∧ comp ≠ ['.', '.']

/-- A path of the working tree that can stand on a line of its own in a commit record:
it has no line break, lies outside the repository directory, does not read as the
`Parent:` line of a record, and is in canonical form. -/
def Plain (f : String) : Prop :=
  NoNL f ∧ ¬ InRepo f ∧ "Parent:".data.isPrefixOf f.data = false ∧ Canonical f

instance instDecidableNoNL (s : String) : Decidable (NoNL s) := by
  unfold NoNL
  infer_instance

instance instDecidableInRepo (p : String) : Decidable (InRepo p) := by
  unfold InRepo
  infer_instance

instance instDecidableCanonical (p : String) : Decidable (Canonical p) := by
  unfold Canonical
  infer_instance

instance instDecidablePlain (f : String) : Decidable (Plain f) := by
  unfold Plain
  infer_instance

/-- The paths under which the directories made by `init` are opened afterwards. -/
def repoDirs : List String :=
  [repoPath, repoPath ++ "/", objectsPath, objectsPath ++ "/", repoPath ++ "/refs",
    repoPath ++ "/refs/", commitsPath, commitsPath ++ "/"]

/-- The header `MiniGit::diff` prints for a file. -/
def fileHeader (file : String) : String := "\n=== File: " ++ file ++ " ===\n"

/-- The paths `checkout` hands to its restore loop; none when it stops before. -/
def checkoutTargets (s : State) (branchName : String) : List String :=
  match s.fs (refPath branchName) with
  | none => []
  | some refText =>
    match s.fs (commitPath (firstLine refText)) with
    | none => []
    | some record => checkoutFiles false (getlines record)

/-- The state in which `merge` calls `commit`, when it gets that far. -/
def mergeTree (env : Env) (s : State) (branchName : String) : Option State :=
  match s.fs (refPath branchName) with
  | none => none
  | some refText =>
    match s.fs (commitPath (firstLine refText)) with
    | none => none
    | some record =>
      match mergeLoop env (mergeFiles false (getlines record)) s with
      | .threw _ _ => none
      | .returned s => some s

/-- Whether `checkout` or `merge`, called with `branchName` in state `s`, opens paths in
canonical form only: the branch name is canonical, so is the hash on the first line of
the ref, and every path that `paths` finds in the record of that hash passes `ok`. -/
def readsCanonical (s : State) (branchName : String) (paths : List String → List String)
    (ok : String → Bool) : Bool :=
  decide (Canonical branchName) &&
    match s.fs (refPath branchName) with
    | none => true
    | some refText =>
      decide (Canonical (firstLine refText)) &&
        match s.fs (commitPath (firstLine refText)) with
        | none => true
        | some record => (paths (getlines record)).all ok

/-- Whether the call `op`, made in state `s`, spares the record of commit `h`: the names
and paths it opens are in canonical form, a commit it makes, directly or by `merge`,
does not get the hash `h` again, and a checkout does not have the record file of `h`
itself among the tracked paths it restores. -/
def spares (env : Env) (s : State) (h : String) : Op → Bool
  | .add filename => decide (Canonical filename)
  | .branch name => decide (Canonical name)
  | .commit message now =>
    s.stagedFiles.isEmpty || decide ((newCommit env s message now).hash ≠ h)
  | .checkout branchName =>
    readsCanonical s branchName (checkoutFiles false)
      (fun f => decide (Canonical f ∧ f ≠ commitPath h))
  | .merge branchName now =>
    readsCanonical s branchName (mergeFiles false) (fun f => decide (Canonical f)) &&
      match mergeTree env s branchName with
      | none => true
      | some s' =>
        s'.stagedFiles.isEmpty ||
          decide ((newCommit env s' ("Merged branch: " ++ branchName) now).hash ≠ h)

/-- Whether every call of the sequence `ops`, run from state `s`, spares the record of
`h`. -/
def sparedRun (env : Env) (h : String) : State → List Op → Bool
  | _, [] => true
  | s, op :: ops =>
    spares env s h op &&
      match step env s op with
      | .threw _ _ => true
      | .returned s' => sparedRun env h s' ops

/-- The chain of `Parent` entries that `log` follows from the commit `h` ends in a record
with an empty `Parent`, every record on the way being stored. -/
inductive Grounded (fs : FS) : String → Prop
  | root (h record : String) :
      fs (commitPath h) = some record → logParent record = "" → Grounded fs h
  | child (h record : String) :
      fs (commitPath h) = some record → Grounded fs (logParent record) → Grounded fs h

/-- Whether the walk of `log` from the commit `current` along the `Parent` entries comes
to the commit `target` (`current` itself included); the walk is followed for at most
`fuel` records and counts as coming to `target` when it is longer than that. -/
def onChain : Nat → FS → String → String → Bool
  | 0, _, _, _ => true
  | fuel + 1, fs, current, target =>
    if current = "" then false
    else if current = target then true
    else
      match fs (commitPath current) with
      | none => false
      | some record => onChain fuel fs (logParent record) target

/-- Whether the call `op`, made in state `s`, is admissible: an added path is plain, a
branch name is canonical, a commit message or merged branch name has no line break, and
a commit that is made, directly or by `merge`, does not get the hash of a commit on the
chain of parents of the head it is made on (the head included). -/
def admissible (fuel : Nat) (env : Env) (s : State) : Op → Bool
  | .add filename => decide (Plain filename)
  | .branch name => decide (Canonical name)
  | .commit message now =>
    decide (NoNL message) &&
      (s.stagedFiles.isEmpty ||
        !onChain fuel s.fs s.headHash (newCommit env s message now).hash)
  | .checkout branchName => decide (Canonical branchName)
  | .merge branchName now =>
    decide (Canonical branchName) && decide (NoNL branchName) &&
      match mergeTree env s branchName with
      | none => true
      | some s' =>
        s'.stagedFiles.isEmpty ||
          !onChain fuel s'.fs s'.headHash
            (newCommit env s' ("Merged branch: " ++ branchName) now).hash

/-- Whether every call of the sequence `ops`, run from state `s`, is admissible. -/
def admissibleRun (fuel : Nat) (env : Env) : State → List Op → Bool
  | _, [] => true
  | s, op :: ops =>
    admissible fuel env s op &&
      match step env s op with
      | .threw _ _ => true
      | .returned s' => admissibleRun fuel env s' ops

/-- The invariant of the repository behind the termination of `log`: staged paths are
plain, the head is empty or a decimal hash with a grounded chain of parents, every
branch ref with a canonical name holds a decimal hash, and every record stored under a
decimal hash has lines outside the repository directory, plain paths after `Files:` and
a grounded chain of parents. -/
structure Sound (s : State) : Prop where
  staged : ∀ f ∈ s.stagedFiles, Plain f
  head : s.headHash = "" ∨ (IsDecimal s.headHash ∧ Grounded s.fs s.headHash)
  refs : ∀ name text, Canonical name → s.fs (refPath name) = some text → IsDecimal text
  records : ∀ h record, IsDecimal h → s.fs (commitPath h) = some record →
    (∀ l ∈ getlines record, ¬ InRepo l) ∧
    (∀ f ∈ mergeFiles false (getlines record), Plain f) ∧ Grounded s.fs h

/-! ## Concrete inputs -/

/-- An environment in which every file can be opened for output and the string hash is
`hash`. -/
def envOf (hash : String → Nat) : Env :=
  { strHash := hash, canOpen := fun _ => true }

/-- A sample string hash: the length of the string. -/
def lengthHash (text : String) : Nat := text.length

/-- A disk that holds the single file `a.txt` with the content `hello`. -/
def helloDisk : FS :=
  fun p => if p = "a.txt" then some "hello" else none

/-- A disk on which branch `feature` points at commit `7`, whose record lists the path
`b.txt`, while the working tree holds no `b.txt`. -/
def absentDisk : FS :=
  fun p =>
    if p = refPath "feature" then some "7"
    else if p = commitPath "7" then
      some "Message: first\nTimestamp: 100\nParent: \nFiles:\nb.txt\n"
    else none

/-- The scenario of the specification up to the second commit: `init`, `a.txt` staged
with the content `hello` and committed as `first` at time `t1`, branch `feature`
created, `a.txt` overwritten with `world`, staged again and committed as `second` at
time `t2`. -/
def twoCommits (env : Env) (t1 t2 : Int) : State :=
  let s := init env (fresh helloDisk)
  let s := add env s "a.txt"
  let s := commit env s "first" t1
  let s := branch env s "feature"
  let s := s.writeFile "a.txt" "world"
  let s := add env s "a.txt"
  commit env s "second" t2

/-- The state after `init` on the sample disk, when `a.txt` has been staged and
committed as `m` at time `now`. -/
def firstCommit (env : Env) (now : Int) : State :=
  commit env (add env (init env (fresh helloDisk)) "a.txt") "m" now

/-- The state after `init` on the sample disk, when `a.txt` has been staged with the
content `hello`, then overwritten with `world` and handed to `add` again. -/
def restaged (env : Env) : State :=
  add env ((add env (init env (fresh helloDisk)) "a.txt").writeFile "a.txt" "world") "a.txt"

/-- The state after `init` on a disk with the files `a.txt` and `b.txt`, both holding
`hello`, when both have been staged and then overwritten with `world`. -/
def bothStaged (env : Env) : State :=
  let disk : FS := fun p => if p = "a.txt" ∨ p = "b.txt" then some "hello" else none
  let s := add env (add env (init env (fresh disk)) "a.txt") "b.txt"
  (s.writeFile "a.txt" "world").writeFile "b.txt" "world"

/-- A disk on which branch `feature` points at commit `7`, whose record lists the paths
`a.txt` and `b.txt`, while the working tree holds `a.txt`, stored as object `532`, and
no `b.txt`. -/
def mixedDisk : FS :=
  fun p =>
    if p = "a.txt" then some "hello"
    else if p = blobPath "532" then some "hello"
    else if p = refPath "feature" then some "7"
    else if p = commitPath "7" then
      some "Message: first\nTimestamp: 100\nParent: \nFiles:\na.txt\nb.txt\n"
    else none

theorem digitChar_isDigit (k : Nat) (h : k < 10) : (Nat.digitChar k).isDigit = true := by
  interval_cases k <;> rfl

theorem toDigitsCore_isDigit (fuel : Nat) : ∀ (n : Nat) (ds : List Char),
    (∀ c ∈ ds, c.isDigit = true) → ∀ c ∈ Nat.toDigitsCore 10 fuel n ds, c.isDigit = true := by
  induction fuel with
  | zero => intro n ds hds c hc; simpa [Nat.toDigitsCore] using hds c hc
  | succ fuel ih =>
    intro n ds hds c hc
    have hd : (Nat.digitChar (n % 10)).isDigit = true :=
      digitChar_isDigit _ (Nat.mod_lt _ (by decide))
    have hds' : ∀ c ∈ Nat.digitChar (n % 10) :: ds, c.isDigit = true := by
      intro c hc
      rcases List.mem_cons.1 hc with h | h
      · exact h ▸ hd
      · exact hds c h
    simp only [Nat.toDigitsCore] at hc
    split at hc
    · exact hds' c hc
    · exact ih _ _ hds' c hc

theorem toDigitsCore_ne_nil (fuel : Nat) : ∀ (n : Nat) (ds : List Char),
    Nat.toDigitsCore 10 (fuel + 1) n ds ≠ [] := by
  induction fuel with
  | zero => intro n ds; simp [Nat.toDigitsCore]
  | succ fuel ih =>
    intro n ds
    rw [Nat.toDigitsCore]
    split
    · simp
    · exact ih _ _

theorem natToString_data (n : Nat) : (toString n).data = Nat.toDigits 10 n := rfl

theorem isDecimal_toString (n : Nat) : IsDecimal (toString n) := by
  constructor
  · rw [natToString_data]; exact toDigitsCore_ne_nil _ _ _
  · rw [natToString_data]; exact toDigitsCore_isDigit _ _ _ (by simp)

theorem isDecimal_computeHash (content : String) : IsDecimal (computeHash content) :=
  isDecimal_toString _

theorem isDecimal_generateCommitHash (env : Env) (c : Commit) :
    IsDecimal (generateCommitHash env c) :=
  isDecimal_toString _

theorem commitPath_ne_blobPath (h g : String) : commitPath h ≠ blobPath g := by
  simp [commitPath, blobPath, commitsPath, objectsPath, String.ext_iff]

theorem commitPath_ne_headPath (h : String) : commitPath h ≠ headPath := by
  simp [commitPath, headPath, commitsPath, repoPath, String.ext_iff]

theorem commitPath_ne_refPath (h n : String) : commitPath h ≠ refPath n := by
  simp [commitPath, refPath, commitsPath, repoPath, String.ext_iff]

theorem blobPath_ne_headPath (h : String) : blobPath h ≠ headPath := by
  simp [blobPath, headPath, objectsPath, repoPath, String.ext_iff]

theorem blobPath_ne_refPath (h n : String) : blobPath h ≠ refPath n := by
  simp [blobPath, refPath, objectsPath, repoPath, String.ext_iff]

theorem refPath_ne_headPath (n : String) : refPath n ≠ headPath := by
  simp [refPath, headPath, repoPath, String.ext_iff]

theorem commitPath_inj {h g : String} : commitPath h = commitPath g ↔ h = g := by
  simp [commitPath, commitsPath, String.ext_iff]

theorem refPath_inj {h g : String} : refPath h = refPath g ↔ h = g := by
  simp [refPath, repoPath, String.ext_iff]

/-! ## Path names -/

theorem components_ne_nil (l : List Char) : components l ≠ [] := by
  induction l with
  | nil => simp [components]
  | cons c cs ih =>
    by_cases hc : c = '/'
    · simp [components, hc]
    · cases h : components cs <;> simp [components, hc, h]

theorem components_append (a b : List Char) :
    components (a ++ '/' :: b) = components a ++ components b := by
  induction a with
  | nil => simp [components]
  | cons c cs ih =>
    by_cases hc : c = '/'
    · simp [components, hc, ih]
    · cases h : components cs with
      | nil => exact absurd h (components_ne_nil cs)
      | cons comp rest => simp [components, hc, ih, h]

theorem joinSlash_components (l : List Char) : joinSlash (components l) = l := by
  induction l with
  | nil => rfl
  | cons c cs ih =>
    cases h : components cs with
    | nil => exact absurd h (components_ne_nil cs)
    | cons comp rest =>
      rw [h] at ih
      by_cases hc : c = '/'
      · simp [components, hc, h, joinSlash, ih]
      · cases rest with
        | nil => simp [components, hc, h, joinSlash] at ih ⊢; exact ih
        | cons next rest => simp [components, hc, h, joinSlash] at ih ⊢; exact ih

theorem resolveDots_simple : ∀ (comps stack : List (List Char)),
    (∀ comp ∈ comps, comp ≠ [] ∧ comp ≠ ['.'] ∧ comp ≠ ['.', '.']) →
    resolveDots stack comps = stack.reverse ++ comps := by
  intro comps
  induction comps with
  | nil => intro stack _; simp [resolveDots]
  | cons comp rest ih =>
    intro stack h
    obtain ⟨h1, h2, h3⟩ := h comp (List.mem_cons_self _ _)
    simp only [resolveDots, h1, h2, h3, or_self, if_false]
    rw [ih _ (fun c hc => h c (List.mem_cons_of_mem _ hc))]
    simp

/-- A path in canonical form leads to the file it spells. -/
theorem normalize_canonical (p : String) (h : Canonical p) : normalize p = p := by
  unfold normalize
  rw [resolveDots_simple _ _ h]
  simp [joinSlash_components]

theorem canonical_ne_empty {p : String} (h : Canonical p) : p ≠ "" := by
  intro e
  subst e
  exact (h [] (by decide)).1 rfl

theorem refPath_data (name : String) :
    (refPath name).data = ".minigit".data ++ '/' :: ("refs".data ++ '/' :: name.data) := by
  simp [refPath, repoPath]

theorem canonical_refPath {name : String} (h : Canonical name) : Canonical (refPath name) := by
  intro comp hc
  rw [refPath_data, components_append, components_append] at hc
  rcases List.mem_append.1 hc with h1 | h1
  · have : comp = ".minigit".data := by simpa [components] using h1
    subst this; decide
  rcases List.mem_append.1 h1 with h2 | h2
  · have : comp = "refs".data := by simpa [components] using h2
    subst this; decide
  · exact h comp h2

/-- The ref of a branch with a canonical name is the file `refs/<name>` itself. -/
theorem normalize_refPath {name : String} (h : Canonical name) :
    normalize (refPath name) = refPath name :=
  normalize_canonical _ (canonical_refPath h)

theorem isDecimal_canonical {h : String} (hd : IsDecimal h) : Canonical h := by
  have hs : '/' ∉ h.data := fun hm => by simpa using hd.2 _ hm
  have : ∀ l : List Char, '/' ∉ l → components l = [l] := by
    intro l
    induction l with
    | nil => intro _; rfl
    | cons c cs ih =>
      intro hl
      simp only [List.mem_cons, not_or] at hl
      simp [components, Ne.symm hl.1, ih hl.2]
  intro comp hc
  rw [this _ hs] at hc
  simp only [List.mem_singleton] at hc
  subst hc
  refine ⟨hd.1, ?_, ?_⟩
  · intro e
    have := hd.2 '.' (by rw [e]; simp)
    simp at this
  · intro e
    have := hd.2 '.' (by rw [e]; simp)
    simp at this

/-! ## C10: the commit hash and the parent -/

/-- C10 (counterexample): there are no two commits with the same message, timestamp and
path list but different parents whose hashes differ, whatever `std::hash` is. -/
theorem generateCommitHash_parent_counterexample :
    ¬ ∃ (env : Env) (c1 c2 : Commit), c1.message = c2.message ∧
      c1.timestamp = c2.timestamp ∧ c1.stagedFiles = c2.stagedFiles ∧
      c1.parentHash ≠ c2.parentHash ∧
      generateCommitHash env c1 ≠ generateCommitHash env c2 := by
  rintro ⟨env, c1, c2, hm, ht, hf, -, hne⟩
  apply hne
  simp [generateCommitHash, commitSum, hm, ht, hf]

/-- C10 (amended): the commit hash is computed from the message, the timestamp and the
path list only; two commits that agree on these have the same hash, whatever their
parents are. -/
theorem generateCommitHash_ignores_parent (env : Env) (c1 c2 : Commit)
    (hm : c1.message = c2.message) (ht : c1.timestamp = c2.timestamp)
    (hf : c1.stagedFiles = c2.stagedFiles) :
    generateCommitHash env c1 = generateCommitHash env c2 := by
  simp [generateCommitHash, commitSum, hm, ht, hf]

/-- C10 (witness): two commits `m` at time 7 over `a.txt`, one a root and one with
parent `41`, get the same hash. -/
theorem generateCommitHash_ignores_parent_witness :
    generateCommitHash (envOf lengthHash)
        { hash := "", message := "m", timestamp := 7, stagedFiles := ["a.txt"],
          parentHash := "" } =
      generateCommitHash (envOf lengthHash)
        { hash := "", message := "m", timestamp := 7, stagedFiles := ["a.txt"],
          parentHash := "41" } :=
  generateCommitHash_ignores_parent _ _ _ rfl rfl rfl

/-! ## The file system -/

@[simp] theorem FS.write_same (fs : FS) (path content : String) :
    fs.write path content path = some content := by
  simp [FS.write]

theorem FS.write_of_ne (fs : FS) {path p : String} (content : String) (h : p ≠ path) :
    fs.write path content p = fs p := by
  simp [FS.write, h]

@[simp] theorem print_fs (s : State) (t : String) : (s.print t).fs = s.fs := rfl

@[simp] theorem printErr_fs (s : State) (t : String) : (s.printErr t).fs = s.fs := rfl

@[simp] theorem print_stagedFiles (s : State) (t : String) :
    (s.print t).stagedFiles = s.stagedFiles := rfl

@[simp] theorem printErr_stagedFiles (s : State) (t : String) :
    (s.printErr t).stagedFiles = s.stagedFiles := rfl

@[simp] theorem print_headHash (s : State) (t : String) : (s.print t).headHash = s.headHash := rfl

@[simp] theorem printErr_headHash (s : State) (t : String) :
    (s.printErr t).headHash = s.headHash := rfl

@[simp] theorem writeFile_fs (s : State) (p c : String) :
    (s.writeFile p c).fs = s.fs.write p c := rfl

@[simp] theorem writeFile_stagedFiles (s : State) (p c : String) :
    (s.writeFile p c).stagedFiles = s.stagedFiles := rfl

@[simp] theorem writeFile_headHash (s : State) (p c : String) :
    (s.writeFile p c).headHash = s.headHash := rfl

/-! ## C6: staging twice -/

/-- The disk after `add` differs from the disk before at most in the object keyed by
the checksum of the file, which then holds the bytes of the file. -/
theorem add_fs_change (env : Env) (s : State) (filename content : String)
    (h : s.fs filename = some content) (p : String)
    (hp : (add env s filename).fs p ≠ s.fs p) :
    p = blobPath (computeHash content) ∧ (add env s filename).fs p = some content := by
  unfold add readFile writeBlob at hp ⊢
  simp only [h] at hp ⊢
  by_cases hst : filename ∈ s.stagedFiles
  · simp [hst] at hp
  · by_cases hw : env.canOpen (blobPath (computeHash content)) = true
    · simp only [hst, hw, not_false_eq_true, if_true, print_fs, writeFile_fs] at hp ⊢
      by_cases hpe : p = blobPath (computeHash content)
      · subst hpe; simp
      · exact absurd (FS.write_of_ne _ _ hpe) hp
    · simp [hst, hw] at hp

/-- After `add` of an existing file the path is staged. -/
theorem add_staged (env : Env) (s : State) (filename content : String)
    (h : s.fs filename = some content) : filename ∈ (add env s filename).stagedFiles := by
  unfold add readFile writeBlob
  simp only [h]
  by_cases hst : filename ∈ s.stagedFiles
  · simp [hst]
  · by_cases hw : env.canOpen (blobPath (computeHash content)) = true <;>
      simp [hst, hw, insertStaged]

/-- `add` on an already staged path only reports it. -/
theorem add_of_staged (env : Env) (s : State) (filename content : String)
    (h : s.fs filename = some content) (hst : filename ∈ s.stagedFiles) :
    add env s filename = s.print (filename ++ " is already staged.\n") := by
  unfold add readFile
  simp [h, hst]

/-- C6 (amended): when the file exists, a second `add` of the unchanged file reports
that the path is already staged and changes neither the staging set nor the disk nor
the head; the two calls together change the disk at most in one place, the object keyed
by the checksum of the file, and that object then holds the bytes of the file.  The
object is stored when the path was not staged before the first call and the object can
be opened for output; when the path was staged already, the two calls leave the disk as
it was. -/
theorem add_twice (env : Env) (s : State) (filename content : String)
    (h : s.fs filename = some content) :
    (add env s filename).fs filename = some content ∧
    add env (add env s filename) filename =
      (add env s filename).print (filename ++ " is already staged.\n") ∧
    (add env (add env s filename) filename).stagedFiles = (add env s filename).stagedFiles ∧
    (add env (add env s filename) filename).fs = (add env s filename).fs ∧
    (∀ p, (add env (add env s filename) filename).fs p ≠ s.fs p →
      p = blobPath (computeHash content) ∧
      (add env (add env s filename) filename).fs p = some content) ∧
    (filename ∉ s.stagedFiles → env.canOpen (blobPath (computeHash content)) = true →
      (add env (add env s filename) filename).fs (blobPath (computeHash content)) =
        some content) ∧
    (filename ∈ s.stagedFiles → (add env (add env s filename) filename).fs = s.fs) := by
  have h1 : (add env s filename).fs filename = some content := by
    by_contra hne
    have := add_fs_change env s filename content h filename (by rw [h]; exact hne)
    exact hne this.2
  have h2 := add_of_staged env (add env s filename) filename content h1
    (add_staged env s filename content h)
  refine ⟨h1, h2, ?_, ?_, ?_, ?_, ?_⟩
  · rw [h2]; rfl
  · rw [h2]; rfl
  · intro p hp
    rw [h2] at hp ⊢
    exact add_fs_change env s filename content h p hp
  · intro hst hw
    rw [h2]
    simp [add, readFile, h, hst, writeBlob, hw]
  · intro hst
    rw [h2, add_of_staged env s filename content h hst]
    rfl

/-- C6 (witness): on a disk with `a.txt` holding `hello`, staging `a.txt` twice. -/
theorem add_twice_witness :
    (add (envOf lengthHash) (add (envOf lengthHash) (fresh helloDisk) "a.txt") "a.txt").fs =
      (add (envOf lengthHash) (fresh helloDisk) "a.txt").fs :=
  (add_twice (envOf lengthHash) (fresh helloDisk) "a.txt" "hello" rfl).2.2.2.1

/-! ## C5: merging a path that is absent from the working tree -/

/-- One turn of the merge loop on a path that does not exist in the working tree ends
with the exception of `readFile`, before anything is written. -/
theorem mergeFile_absent (env : Env) (s : State) (file : String) (h : s.fs file = none) :
    mergeFile env s file = .threw s ("File not found: " ++ file) := by
  simp [mergeFile, readFile, h]

/-- C5 (the code at the failing input): when the first path of the branch's snapshot does
not exist in the working tree, `merge` does not run to completion: it ends with the
exception `File not found`, in the state it started from, so the stored blob is not
written to the path and no merge commit is made. -/
theorem merge_absent_throws (env : Env) (s : State) (branchName : String) (now : Int)
    (refText record file : String) (rest : List String)
    (href : s.fs (refPath branchName) = some refText)
    (hrec : s.fs (commitPath (firstLine refText)) = some record)
    (hfiles : mergeFiles false (getlines record) = file :: rest)
    (habsent : s.fs file = none) :
    merge env s branchName now = .threw s ("File not found: " ++ file) := by
  simp [merge, href, hrec, hfiles, mergeLoop, mergeFile_absent env s file habsent]

/-- C5 (witness): merging `feature`, whose commit lists `b.txt`, into a working tree
without `b.txt`. -/
theorem merge_absent_throws_witness :
    merge (envOf lengthHash) (fresh absentDisk) "feature" 300 =
      .threw (fresh absentDisk) "File not found: b.txt" :=
  merge_absent_throws (envOf lengthHash) (fresh absentDisk) "feature" 300 "7"
    "Message: first\nTimestamp: 100\nParent: \nFiles:\nb.txt\n" "b.txt" []
    (by decide) (by decide) (by decide) (by decide)

/-! ## C7 and C8: diff -/

theorem mem_setInsert (a x : String) (l : List String) :
    a ∈ setInsert x l ↔ a = x ∨ a ∈ l := by
  induction l with
  | nil => simp [setInsert]
  | cons y ys ih =>
    unfold setInsert
    split
    · simp
    · split
      · rename_i hxy; subst hxy; simp
      · simp [ih]; tauto

theorem mem_foldl_setInsert (a : String) (l : List String) : ∀ init : List String,
    a ∈ l.foldl (fun all f => setInsert f all) init ↔ a ∈ l ∨ a ∈ init := by
  induction l with
  | nil => intro init; simp
  | cons y ys ih => intro init; simp [ih, mem_setInsert]; tauto

theorem diffLines_self (l : List String) : diffLines l l = [] := by
  induction l with
  | nil => simp [diffLines]
  | cons x xs ih => simp [diffLines, ih]

/-- The loop of `diff` reads both contents of a path from the same working file, so it
prints nothing after the header of a path that both commits track. -/
theorem diffLoop_pieces (files1 files2 : List String) : ∀ (all : List String) (s : State),
    ∃ pieces, (diffLoop files1 files2 all s).state = { s with cout := s.cout ++ pieces } ∧
      ∀ x ∈ pieces, (∃ f, x = fileHeader f) ∨ x = "- File removed in commit2\n" ∨
        x = "+ File added in commit2\n" := by
  intro all
  induction all with
  | nil => intro s; exact ⟨[], by simp [diffLoop, Outcome.state], by simp⟩
  | cons file rest ih =>
    intro s
    unfold diffLoop
    simp only []
    split
    · obtain ⟨pieces, h1, h2⟩ := ih ((s.print (fileHeader file)).print "- File removed in commit2\n")
      refine ⟨fileHeader file :: "- File removed in commit2\n" :: pieces, ?_, ?_⟩
      · simpa [State.print, fileHeader] using h1
      · intro x hx
        simp only [List.mem_cons] at hx
        rcases hx with hx | hx | hx
        · exact Or.inl ⟨file, hx⟩
        · exact Or.inr (Or.inl hx)
        · exact h2 x hx
    · split
      · obtain ⟨pieces, h1, h2⟩ := ih ((s.print (fileHeader file)).print "+ File added in commit2\n")
        refine ⟨fileHeader file :: "+ File added in commit2\n" :: pieces, ?_, ?_⟩
        · simpa [State.print, fileHeader] using h1
        · intro x hx
          simp only [List.mem_cons] at hx
          rcases hx with hx | hx | hx
          · exact Or.inl ⟨file, hx⟩
          · exact Or.inr (Or.inr hx)
          · exact h2 x hx
      · cases hf : s.fs file with
        | none =>
          refine ⟨[fileHeader file], ?_, ?_⟩
          · simp [readFile, hf, Outcome.state, State.print, fileHeader]
          · intro x hx
            exact Or.inl ⟨file, by simpa using hx⟩
        | some content =>
          obtain ⟨pieces, h1, h2⟩ := ih (s.print (fileHeader file))
          refine ⟨fileHeader file :: pieces, ?_, ?_⟩
          · simpa [readFile, hf, diffLines_self, State.print, fileHeader] using h1
          · intro x hx
            simp only [List.mem_cons] at hx
            rcases hx with hx | hx
            · exact Or.inl ⟨file, hx⟩
            · exact h2 x hx

theorem diffLoop_same (files : List String) : ∀ (all : List String) (s : State),
    (∀ f ∈ all, f ∈ files ∧ (s.fs f).isSome = true) →
    diffLoop files files all s = .returned { s with cout := s.cout ++ all.map fileHeader } := by
  intro all
  induction all with
  | nil => intro s _; simp [diffLoop]
  | cons file rest ih =>
    intro s h
    obtain ⟨hmem, hex⟩ := h file (List.mem_cons_self _ _)
    obtain ⟨content, hc⟩ := Option.isSome_iff_exists.1 hex
    have hrest : ∀ f ∈ rest, f ∈ files ∧ ((s.print (fileHeader file)).fs f).isSome = true :=
      fun f hf => h f (List.mem_cons_of_mem _ hf)
    unfold diffLoop
    simp only [hmem, decide_True, Bool.not_true, Bool.and_false, Bool.false_and, if_false,
      Bool.false_eq_true, print_fs, readFile, hc, diffLines_self, List.append_nil]
    have := ih (s.print (fileHeader file)) hrest
    simpa [State.print, fileHeader] using this

/-- C7: for an existing commit whose tracked paths all exist in the working tree,
`diff` of the commit with itself returns and prints nothing but one header for each
tracked path: no removed file, no added file, no removed or added line. -/
theorem diff_self (s : State) (X record : String) (hrec : s.fs (commitPath X) = some record)
    (hexist : ∀ f ∈ extractFiles false (getlines record) [], (s.fs f).isSome = true) :
    ∃ all : List String, (∀ f, f ∈ all ↔ f ∈ extractFiles false (getlines record) []) ∧
      diff s X X = .returned { s with cout := s.cout ++ all.map fileHeader } := by
  refine ⟨(extractFiles false (getlines record) []).foldl (fun all f => setInsert f all)
    ((extractFiles false (getlines record) []).foldl (fun all f => setInsert f all) []),
    ?_, ?_⟩
  · intro f
    simp [mem_foldl_setInsert]
  · unfold diff
    simp only [hrec]
    apply diffLoop_same
    intro f hf
    have hmem : f ∈ extractFiles false (getlines record) [] := by
      simpa [mem_foldl_setInsert] using hf
    exact ⟨hmem, hexist f hmem⟩

/-- C7 (witness): the first commit of the two-commit scenario compared with itself. -/
theorem diff_self_witness :
    ∃ all : List String, (∀ f, f ∈ all ↔ f ∈ extractFiles false
        (getlines "Message: first\nTimestamp: 100\nParent: \nFiles:\na.txt\n") []) ∧
      diff (twoCommits (envOf lengthHash) 100 200) "110" "110" =
        .returned { twoCommits (envOf lengthHash) 100 200 with
          cout := (twoCommits (envOf lengthHash) 100 200).cout ++ all.map fileHeader } :=
  diff_self (twoCommits (envOf lengthHash) 100 200) "110"
    "Message: first\nTimestamp: 100\nParent: \nFiles:\na.txt\n" (by decide) (by decide)

/-- C8 (the code at the failing input): `diff` never prints a removed-line or added-line
marker: whatever the state and the two hashes, each piece it prints is a file header or
one of the two whole-file messages, because both sides of the line comparison are read
from the same working file.  In the two-commit scenario, where `a.txt` was committed as
`hello` in commit `110` and as `world` in commit `211`, it prints the header of `a.txt`
and nothing else. -/
theorem diff_prints_no_line :
    (∀ (s : State) (A B : String), ∃ pieces,
      (diff s A B).state.cout = s.cout ++ pieces ∧
      ∀ x ∈ pieces, (∃ f, x = fileHeader f) ∨ x = "- File removed in commit2\n" ∨
        x = "+ File added in commit2\n") ∧
    (diff (twoCommits (envOf lengthHash) 100 200) "110" "211").state.cout =
      (twoCommits (envOf lengthHash) 100 200).cout ++ ["\n=== File: a.txt ===\n"] ∧
    (twoCommits (envOf lengthHash) 100 200).fs (commitPath "110") =
      some "Message: first\nTimestamp: 100\nParent: \nFiles:\na.txt\n" ∧
    (twoCommits (envOf lengthHash) 100 200).fs (commitPath "211") =
      some "Message: second\nTimestamp: 200\nParent: 110\nFiles:\na.txt\n" := by
  refine ⟨?_, by decide, by decide, by decide⟩
  intro s A B
  unfold diff
  split
  · rename_i record1 record2 _ _
    obtain ⟨pieces, h1, h2⟩ := diffLoop_pieces (extractFiles false (getlines record1) [])
      (extractFiles false (getlines record2) [])
      ((extractFiles false (getlines record2) []).foldl (fun all f => setInsert f all)
        ((extractFiles false (getlines record1) []).foldl (fun all f => setInsert f all) [])) s
    exact ⟨pieces, by simp only [h1], h2⟩
  · exact ⟨[], by simp [Outcome.state, State.printErr], by simp⟩

/-! ## Lines of a text -/

theorem splitLines_append (l rest : List Char) (h : '\n' ∉ l) :
    splitLines (l ++ '\n' :: rest) = l :: splitLines rest := by
  induction l with
  | nil => simp [splitLines]
  | cons c l ih =>
    have hc : c ≠ '\n' := fun e => h (e ▸ List.mem_cons_self _ _)
    have hl : '\n' ∉ l := fun e => h (List.mem_cons_of_mem _ e)
    simp [splitLines, hc, ih hl]

theorem splitLines_single (l : List Char) (h : '\n' ∉ l) (hne : l ≠ []) :
    splitLines l = [l] := by
  induction l with
  | nil => exact absurd rfl hne
  | cons c l ih =>
    have hc : c ≠ '\n' := fun e => h (e ▸ List.mem_cons_self _ _)
    have hl : '\n' ∉ l := fun e => h (List.mem_cons_of_mem _ e)
    cases l with
    | nil => simp [splitLines, hc]
    | cons d l =>
      have := ih hl (by simp)
      rw [splitLines, if_neg hc, this]

theorem splitLines_mem_noNL : ∀ (text l : List Char), l ∈ splitLines text → '\n' ∉ l := by
  intro text
  induction text with
  | nil => intro l h; simp [splitLines] at h
  | cons c cs ih =>
    intro l h
    unfold splitLines at h
    split at h
    · rcases List.mem_cons.1 h with h | h
      · subst h; simp
      · exact ih l h
    · rename_i hc
      split at h
      · simp at h; subst h; simpa using Ne.symm hc
      · rename_i l0 ls heq
        rcases List.mem_cons.1 h with h | h
        · subst h
          have := ih l0 (by rw [heq]; exact List.mem_cons_self _ _)
          simp only [List.mem_cons, not_or]
          exact ⟨Ne.symm hc, this⟩
        · exact ih l (by rw [heq]; exact List.mem_cons_of_mem _ h)

theorem getlines_append (a rest : String) (h : NoNL a) :
    getlines (a ++ "\n" ++ rest) = a :: getlines rest := by
  simp only [getlines, String.data_append]
  rw [List.append_assoc, List.singleton_append, splitLines_append _ _ h]
  rfl

theorem getlines_single (a : String) (h : NoNL a) (hne : a ≠ "") : getlines a = [a] := by
  have : a.data ≠ [] := fun e => hne (String.ext e)
  simp [getlines, splitLines_single _ h this]

theorem getlines_mem_noNL (text l : String) (h : l ∈ getlines text) : NoNL l := by
  simp only [getlines, List.mem_map] at h
  obtain ⟨cs, hcs, rfl⟩ := h
  exact splitLines_mem_noNL _ _ hcs

theorem getlines_filesText (files : List String) (h : ∀ f ∈ files, NoNL f) :
    getlines (filesText files) = files := by
  induction files with
  | nil => rfl
  | cons f rest ih =>
    rw [filesText, getlines_append _ _ (h f (List.mem_cons_self _ _)),
      ih (fun g hg => h g (List.mem_cons_of_mem _ hg))]

theorem isDecimal_noNL {s : String} (h : IsDecimal s) : NoNL s := by
  intro hmem
  exact absurd (h.2 _ hmem) (by decide)

theorem isDecimal_ne_empty {s : String} (h : IsDecimal s) : s ≠ "" := by
  intro e
  exact h.1 (by rw [e])

theorem firstLine_decimal {s : String} (h : IsDecimal s) : firstLine s = s := by
  simp [firstLine, getlines_single s (isDecimal_noNL h) (isDecimal_ne_empty h)]

theorem noNL_append {a b : String} (ha : NoNL a) (hb : NoNL b) : NoNL (a ++ b) := by
  simp only [NoNL, String.data_append, List.mem_append, not_or]
  exact ⟨ha, hb⟩

theorem noNL_toString_nat (n : Nat) : NoNL (toString n) :=
  isDecimal_noNL (isDecimal_toString n)

theorem noNL_toString_int (t : Int) : NoNL (toString t) := by
  cases t with
  | ofNat n => exact noNL_toString_nat n
  | negSucc n =>
    show NoNL ("-" ++ toString (n + 1))
    exact noNL_append (by simp [NoNL]) (noNL_toString_nat _)

/-! ## Commit records -/

theorem commitRecord_eq (c : Commit) :
    commitRecord c = ("Message: " ++ c.message) ++ "\n" ++ (("Timestamp: " ++ toString c.timestamp) ++
      "\n" ++ (("Parent: " ++ c.parentHash) ++ "\n" ++ ("Files:" ++ "\n" ++ filesText c.stagedFiles))) := by
  have : ("Files:\n" : String) = "Files:" ++ "\n" := by decide
  simp only [commitRecord, this, String.append_assoc]

/-- The lines of the record of a commit whose message, parent and paths have no line
break. -/
theorem getlines_commitRecord (c : Commit) (hm : NoNL c.message) (hp : NoNL c.parentHash)
    (hf : ∀ f ∈ c.stagedFiles, NoNL f) :
    getlines (commitRecord c) =
      ("Message: " ++ c.message) :: ("Timestamp: " ++ toString c.timestamp) ::
        ("Parent: " ++ c.parentHash) :: "Files:" :: c.stagedFiles := by
  rw [commitRecord_eq,
    getlines_append _ _ (noNL_append (by simp [NoNL]) hm),
    getlines_append _ _ (noNL_append (by simp [NoNL]) (noNL_toString_int _)),
    getlines_append _ _ (noNL_append (by simp [NoNL]) hp),
    getlines_append _ _ (by simp [NoNL]), getlines_filesText _ hf]

theorem message_line_ne (m : String) : "Message: " ++ m ≠ "Files:" := by
  simp [String.ext_iff]

theorem timestamp_line_ne (t : String) : "Timestamp: " ++ t ≠ "Files:" := by
  simp [String.ext_iff]

theorem parent_line_ne (p : String) : "Parent: " ++ p ≠ "Files:" := by
  simp [String.ext_iff]

theorem mem_checkoutFiles : ∀ (lines : List String) (flag : Bool) (f : String),
    f ∈ checkoutFiles flag lines → f ∈ lines := by
  intro lines
  induction lines with
  | nil => intro flag f h; simp [checkoutFiles] at h
  | cons l rest ih =>
    intro flag f h
    unfold checkoutFiles at h
    split at h
    · exact List.mem_cons_of_mem _ (ih _ _ h)
    · split at h
      · rcases List.mem_cons.1 h with h | h
        · exact h ▸ List.mem_cons_self _ _
        · exact List.mem_cons_of_mem _ (ih _ _ h)
      · exact List.mem_cons_of_mem _ (ih _ _ h)

theorem mem_mergeFiles : ∀ (lines : List String) (flag : Bool) (f : String),
    f ∈ mergeFiles flag lines → f ∈ lines := by
  intro lines
  induction lines with
  | nil => intro flag f h; simp [mergeFiles] at h
  | cons l rest ih =>
    intro flag f h
    unfold mergeFiles at h
    split at h
    · exact List.mem_cons_of_mem _ (ih _ _ h)
    · split at h
      · rcases List.mem_cons.1 h with h | h
        · exact h ▸ List.mem_cons_self _ _
        · exact List.mem_cons_of_mem _ (ih _ _ h)
      · exact List.mem_cons_of_mem _ (ih _ _ h)

/-- In the record of a commit, `checkout` finds its paths among the staged paths. -/
theorem checkoutFiles_commitRecord (c : Commit) (hm : NoNL c.message)
    (hp : NoNL c.parentHash) (hf : ∀ f ∈ c.stagedFiles, NoNL f) :
    checkoutFiles false (getlines (commitRecord c)) = checkoutFiles true c.stagedFiles := by
  rw [getlines_commitRecord c hm hp hf]
  simp [checkoutFiles, message_line_ne, timestamp_line_ne, parent_line_ne]

/-- In the record of a commit, `merge` finds its paths among the staged paths. -/
theorem mergeFiles_commitRecord (c : Commit) (hm : NoNL c.message)
    (hp : NoNL c.parentHash) (hf : ∀ f ∈ c.stagedFiles, NoNL f) :
    mergeFiles false (getlines (commitRecord c)) = mergeFiles true c.stagedFiles := by
  rw [getlines_commitRecord c hm hp hf]
  simp [mergeFiles, message_line_ne, timestamp_line_ne, parent_line_ne]

theorem foldl_logParentStep_files (files : List String)
    (hf : ∀ f ∈ files, "Parent:".data.isPrefixOf f.data = false) (p : String) :
    files.foldl logParentStep p = p := by
  induction files with
  | nil => rfl
  | cons f rest ih =>
    rw [List.foldl_cons, logParentStep, hf f (List.mem_cons_self _ _)]
    exact ih (fun g hg => hf g (List.mem_cons_of_mem _ hg))

theorem dropWhile_blank_decimal (p : String) (hp : p = "" ∨ IsDecimal p) :
    List.dropWhile (fun c => c = ' ' || c = '\t') p.data = p.data := by
  rcases hp with rfl | hp
  · rfl
  · obtain ⟨hne, hd⟩ := hp
    cases hdata : p.data with
    | nil => exact absurd hdata hne
    | cons c cs =>
      have hc : c.isDigit = true := hd c (by rw [hdata]; exact List.mem_cons_self _ _)
      have h1 : c ≠ ' ' := by rintro rfl; exact absurd hc (by decide)
      have h2 : c ≠ '\t' := by rintro rfl; exact absurd hc (by decide)
      simp [List.dropWhile, h1, h2]

/-- The parent that `log` reads from the record of a commit is the parent of the
commit. -/
theorem logParent_commitRecord (c : Commit) (hm : NoNL c.message)
    (hp : c.parentHash = "" ∨ IsDecimal c.parentHash)
    (hf : ∀ f ∈ c.stagedFiles, NoNL f ∧ "Parent:".data.isPrefixOf f.data = false) :
    logParent (commitRecord c) = c.parentHash := by
  have hpn : NoNL c.parentHash := by
    rcases hp with h | h
    · rw [h]; simp [NoNL]
    · exact isDecimal_noNL h
  rw [logParent, getlines_commitRecord c hm hpn (fun f h => (hf f h).1)]
  simp only [List.foldl_cons]
  rw [foldl_logParentStep_files _ (fun f h => (hf f h).2)]
  have h1 : logParentStep "" ("Message: " ++ c.message) = "" := by
    simp [logParentStep, String.data_append, List.isPrefixOf]
  have h2 : ∀ q, logParentStep q ("Timestamp: " ++ toString c.timestamp) = q := by
    intro q; simp [logParentStep, String.data_append, List.isPrefixOf]
  have h3 : ∀ q, logParentStep q ("Parent: " ++ c.parentHash) = c.parentHash := by
    intro q
    have := dropWhile_blank_decimal c.parentHash hp
    simp [logParentStep, String.data_append, List.isPrefixOf, List.dropWhile, this]
  have h4 : ∀ q, logParentStep q "Files:" = q := by
    intro q; simp [logParentStep, List.isPrefixOf]
  rw [h1, h2, h3, h4]

/-! ## C1: checkout after a later commit -/

theorem restoreFiles_cons (env : Env) (s : State) (file current content : String)
    (rest : List String) (hcur : s.fs file = some current)
    (hblob : s.fs (blobPath (computeHash current)) = some content) :
    restoreFiles env (file :: rest) s =
      if env.canOpen file then
        restoreFiles env rest ((s.writeFile file content).print ("Restored: " ++ file ++ "\n"))
      else restoreFiles env rest s := by
  simp only [restoreFiles, readFile, hcur, hblob]

theorem checkout_found (env : Env) (s : State) (branchName refText record : String)
    (href : s.fs (refPath branchName) = some refText)
    (hrec : s.fs (commitPath (firstLine refText)) = some record) :
    checkout env s branchName =
      match restoreFiles env (checkoutFiles false (getlines record)) s with
      | .threw s what => .threw s what
      | .returned s =>
        .returned
          ({ (if env.canOpen headPath then
                s.writeFile headPath ("ref: refs/" ++ branchName ++ "\n")
              else s) with headHash := firstLine refText }.print
            ("Switched to branch: " ++ branchName ++ "\n")) := by
  simp only [checkout, href, hrec]

/-- A file whose content is also the object stored under its own checksum keeps its
content through the restore loop of `checkout`, whatever paths the loop visits. -/
theorem restoreFiles_selfstored (env : Env) (f c : String) : ∀ (files : List String) (s : State),
    s.fs f = some c → s.fs (blobPath (computeHash c)) = some c →
    (restoreFiles env files s).state.fs f = some c ∧
    (restoreFiles env files s).state.fs (blobPath (computeHash c)) = some c := by
  intro files
  induction files with
  | nil => intro s h1 h2; exact ⟨h1, h2⟩
  | cons file rest ih =>
    intro s h1 h2
    cases hcur : s.fs file with
    | none => simp only [restoreFiles, readFile, hcur]; exact ⟨h1, h2⟩
    | some current =>
      cases hblob : s.fs (blobPath (computeHash current)) with
      | none => simp only [restoreFiles, readFile, hcur, hblob]; exact ⟨h1, h2⟩
      | some content =>
        rw [restoreFiles_cons env s file current content rest hcur hblob]
        by_cases hw : env.canOpen file = true
        · rw [if_pos hw]
          apply ih
          · by_cases hf : f = file
            · subst hf
              rw [h1] at hcur
              cases hcur
              rw [h2] at hblob
              cases hblob
              simp
            · simp [FS.write_of_ne _ _ hf, h1]
          · by_cases hf : blobPath (computeHash c) = file
            · rw [← hf] at hcur
              rw [h2] at hcur
              cases hcur
              rw [h2] at hblob
              cases hblob
              simp [hf]
            · simp [FS.write_of_ne _ _ hf, h2]
        · rw [if_neg hw]
          exact ih s h1 h2

/-- A working file whose content is also the object stored under its own checksum
keeps its content through `checkout`, however `checkout` ends. -/
theorem checkout_selfstored (env : Env) (s : State) (branchName f c : String)
    (hf : f ≠ headPath) (h1 : s.fs f = some c)
    (h2 : s.fs (blobPath (computeHash c)) = some c) :
    (checkout env s branchName).state.fs f = some c := by
  cases href : s.fs (refPath branchName) with
  | none => simp only [checkout, href]; exact h1
  | some refText =>
    cases hrec : s.fs (commitPath (firstLine refText)) with
    | none => simp only [checkout, href, hrec]; exact h1
    | some record =>
      rw [checkout_found env s branchName refText record href hrec]
      have := restoreFiles_selfstored env f c (checkoutFiles false (getlines record)) s h1 h2
      cases hres : restoreFiles env (checkoutFiles false (getlines record)) s with
      | threw s' what => rw [hres] at this; exact this.1
      | returned s' =>
        rw [hres] at this
        simp only [Outcome.state] at this ⊢
        by_cases hw : env.canOpen headPath = true
        · simp [hw, FS.write_of_ne _ _ hf, this.1]
        · simp [hw, this.1]

/-! ## The effect of the operations when every file can be opened for output -/

theorem envOf_canOpen (hash : String → Nat) (p : String) : (envOf hash).canOpen p = true := rfl

theorem createDirectory_fs_of_ne (s : State) (path p : String) (h1 : p ≠ path)
    (h2 : p ≠ path ++ "/") : (createDirectory s path).fs p = s.fs p := by
  unfold createDirectory
  split
  · simp [State.writeFile, State.print, FS.write, h1, h2]
  · rfl

@[simp] theorem createDirectory_stagedFiles (s : State) (path : String) :
    (createDirectory s path).stagedFiles = s.stagedFiles := by
  unfold createDirectory
  split <;> rfl

@[simp] theorem createDirectory_headHash (s : State) (path : String) :
    (createDirectory s path).headHash = s.headHash := by
  unfold createDirectory
  split <;> rfl

/-- The paths `init` touches are `HEAD` and the directories it makes. -/
theorem init_fs_of_ne (env : Env) (s : State) (p : String) (hp : p ≠ headPath)
    (hd : p ∉ repoDirs) : (init env s).fs p = s.fs p := by
  simp only [repoDirs, List.mem_cons, List.mem_singleton, List.not_mem_nil, or_false,
    not_or] at hd
  obtain ⟨d1, d2, d3, d4, d5, d6, d7, d8⟩ := hd
  have h4 : (createDirectory (createDirectory (createDirectory (createDirectory
      (s.print "Initializing MiniGit Repository...\n") repoPath) objectsPath)
        (repoPath ++ "/refs")) commitsPath).fs p = s.fs p := by
    rw [createDirectory_fs_of_ne _ _ _ d7 d8, createDirectory_fs_of_ne _ _ _ d5 d6,
      createDirectory_fs_of_ne _ _ _ d3 d4, createDirectory_fs_of_ne _ _ _ d1 d2]
    rfl
  unfold init
  by_cases hw : env.canOpen headPath = true
  · simp only [hw, if_true]
    simpa [State.print, State.writeFile, FS.write, hp] using h4
  · simp only [hw]
    simpa [State.printErr] using h4

@[simp] theorem init_stagedFiles (env : Env) (s : State) :
    (init env s).stagedFiles = s.stagedFiles := by
  unfold init
  by_cases hw : env.canOpen headPath = true <;>
    simp [hw, State.print, State.printErr, State.writeFile]

@[simp] theorem init_headHash (env : Env) (s : State) :
    (init env s).headHash = s.headHash := by
  unfold init
  by_cases hw : env.canOpen headPath = true <;>
    simp [hw, State.print, State.printErr, State.writeFile]

theorem init_hello_fs (env : Env) (p : String) (hp : p ≠ headPath) (hd : p ∉ repoDirs) :
    (init env (fresh helloDisk)).fs p = helloDisk p :=
  init_fs_of_ne env _ p hp hd

theorem add_new (env : Env) (hw : ∀ p, env.canOpen p = true) (s : State)
    (filename content : String) (h : s.fs filename = some content)
    (hst : filename ∉ s.stagedFiles) :
    add env s filename =
      ((({ s with stagedFiles := filename :: s.stagedFiles }.writeFile
        (blobPath (computeHash content)) content).print
          ("Saved blob: " ++ blobPath (computeHash content) ++ "\n")).print
            ("Staged: " ++ filename ++ "\n")) := by
  simp [add, readFile, h, hst, writeBlob, hw, insertStaged]

theorem commit_nonempty (env : Env) (hw : ∀ p, env.canOpen p = true) (s : State)
    (message : String) (now : Int) (hst : s.stagedFiles ≠ []) :
    commit env s message now =
      ({ ((s.writeFile (commitPath (newCommit env s message now).hash)
            (commitRecord (newCommit env s message now))).writeFile headPath
              ("ref: " ++ (newCommit env s message now).hash ++ "\n")) with
          headHash := (newCommit env s message now).hash, stagedFiles := [] }.print
        ("Committed with hash: " ++ (newCommit env s message now).hash ++ "\n")) := by
  simp [commit, hst, saveCommit, hw]

theorem commit_empty (env : Env) (s : State) (message : String) (now : Int)
    (hst : s.stagedFiles = []) :
    commit env s message now = s.print "No changes to commit.\n" := by
  simp [commit, hst]

theorem branch_ok (env : Env) (hw : ∀ p, env.canOpen p = true) (s : State) (name : String)
    (hn : Canonical name) (hh : s.headHash ≠ "") :
    branch env s name =
      (s.writeFile (refPath name) s.headHash).print
        ("Created branch \x27" ++ name ++ "\x27 pointing to " ++ s.headHash ++ "\n") := by
  simp [branch, hh, hw, normalize_refPath hn]

theorem newCommit_hash (env : Env) (s : State) (m : String) (t : Int) :
    IsDecimal (newCommit env s m t).hash :=
  isDecimal_toString _

@[simp] theorem newCommit_message (env : Env) (s : State) (m : String) (t : Int) :
    (newCommit env s m t).message = m := rfl

@[simp] theorem newCommit_parentHash (env : Env) (s : State) (m : String) (t : Int) :
    (newCommit env s m t).parentHash = s.headHash := rfl

@[simp] theorem newCommit_stagedFiles (env : Env) (s : State) (m : String) (t : Int) :
    (newCommit env s m t).stagedFiles = s.stagedFiles := rfl

@[simp] theorem newCommit_timestamp (env : Env) (s : State) (m : String) (t : Int) :
    (newCommit env s m t).timestamp = t := rfl

/-- The hash of the commit that `commit` makes depends on the state through the staging
set only. -/
theorem newCommit_hash_congr (env : Env) (s s' : State) (m : String) (t : Int)
    (h : s.stagedFiles = s'.stagedFiles) :
    (newCommit env s m t).hash = (newCommit env s' m t).hash := by
  simp [newCommit, generateCommitHash, commitSum, h]

theorem checkoutFiles_single_record (c : Commit) (hm : NoNL c.message)
    (hp : NoNL c.parentHash) (hf : c.stagedFiles = ["a.txt"]) :
    checkoutFiles false (getlines (commitRecord c)) = ["a.txt"] ∧
    mergeFiles false (getlines (commitRecord c)) = ["a.txt"] ∧
    extractFiles false (getlines (commitRecord c)) [] = ["a.txt"] := by
  have hnl : ∀ f ∈ c.stagedFiles, NoNL f := by
    rw [hf]; intro f h; simp at h; subst h; simp [NoNL]
  refine ⟨?_, ?_, ?_⟩
  · rw [checkoutFiles_commitRecord c hm hp hnl, hf]; decide
  · rw [mergeFiles_commitRecord c hm hp hnl, hf]; decide
  · rw [getlines_commitRecord c hm hp hnl, hf]
    simp [extractFiles, message_line_ne, timestamp_line_ne, parent_line_ne, setInsert]

/-- The state of the two-commit scenario: `a.txt` holds `world`, which is also the
object `552`; the object `532` holds `hello`; branch `feature` points at the first
commit, whose record lists `a.txt`. -/
theorem twoCommits_state (hash : String → Nat) (t1 t2 : Int) :
    ∃ h1 record, IsDecimal h1 ∧
      (twoCommits (envOf hash) t1 t2).fs "a.txt" = some "world" ∧
      (twoCommits (envOf hash) t1 t2).fs (blobPath "552") = some "world" ∧
      (twoCommits (envOf hash) t1 t2).fs (blobPath "532") = some "hello" ∧
      (twoCommits (envOf hash) t1 t2).fs "a.txt.conflict" = none ∧
      (twoCommits (envOf hash) t1 t2).fs (refPath "feature") = some h1 ∧
      (twoCommits (envOf hash) t1 t2).fs (commitPath h1) = some record ∧
      checkoutFiles false (getlines record) = ["a.txt"] ∧
      mergeFiles false (getlines record) = ["a.txt"] ∧
      (twoCommits (envOf hash) t1 t2).stagedFiles = [] := by
  have hw := envOf_canOpen hash
  -- the states of the scenario, one after the other
  have e1 := add_new (envOf hash) hw (init (envOf hash) (fresh helloDisk)) "a.txt" "hello"
    (by rw [init_hello_fs _ _ (by decide) (by decide)]; rfl) (by simp [fresh])
  generalize hs0 : init (envOf hash) (fresh helloDisk) = s0 at e1
  have hst0 : s0.stagedFiles = [] := by rw [← hs0]; simp [fresh]
  have hhd0 : s0.headHash = "" := by rw [← hs0]; simp [fresh]
  have hfs0 : ∀ p, p ≠ headPath → p ∉ repoDirs → s0.fs p = helloDisk p := by
    intro p h1 h2; rw [← hs0]; exact init_hello_fs _ p h1 h2
  generalize hs1 : add (envOf hash) s0 "a.txt" = s1 at e1
  have e2 := commit_nonempty (envOf hash) hw s1 "first" t1 (by rw [e1]; simp [State.print, State.writeFile])
  generalize hh1 : (newCommit (envOf hash) s1 "first" t1).hash = h1 at e2
  have hd1 : IsDecimal h1 := hh1 ▸ newCommit_hash _ _ _ _
  generalize hs2 : commit (envOf hash) s1 "first" t1 = s2 at e2
  have e3 := branch_ok (envOf hash) hw s2 "feature" (by decide)
    (by rw [e2]; exact isDecimal_ne_empty hd1)
  generalize hs3 : branch (envOf hash) s2 "feature" = s3 at e3
  have e5 := add_new (envOf hash) hw (s3.writeFile "a.txt" "world") "a.txt" "world"
    (by simp) (by rw [e3, e2]; simp [State.print, State.writeFile])
  generalize hs5 : add (envOf hash) (s3.writeFile "a.txt" "world") "a.txt" = s5 at e5
  have e6 := commit_nonempty (envOf hash) hw s5 "second" t2 (by rw [e5]; simp [State.print, State.writeFile])
  generalize hh2 : (newCommit (envOf hash) s5 "second" t2).hash = h2 at e6
  have hts : twoCommits (envOf hash) t1 t2 = commit (envOf hash) s5 "second" t2 := by
    simp only [twoCommits, hs0, hs1, hs2, hs3, hs5]
  have hc552 : computeHash "world" = "552" := by decide
  have hc532 : computeHash "hello" = "532" := by decide
  have hhead2 : s2.headHash = h1 := by rw [e2]; rfl
  have hhead5 : s5.headHash = h1 := by rw [e5, e3]; exact hhead2
  have hst5 : s5.stagedFiles = ["a.txt"] := by rw [e5, e3, e2]; rfl
  have hst1 : s1.stagedFiles = ["a.txt"] := by rw [e1]; simp [State.print, State.writeFile, hst0]
  have hfs5 : s5.fs = ((((((s0.fs.write
      (blobPath "532") "hello").write (commitPath h1)
        (commitRecord (newCommit (envOf hash) s1 "first" t1))).write headPath
          ("ref: " ++ h1 ++ "\n")).write (refPath "feature") h1).write "a.txt" "world").write
            (blobPath "552") "world") := by
    rw [e5, e3, e2, e1, hc552, hc532]; rfl
  have hrec1 := checkoutFiles_single_record (newCommit (envOf hash) s1 "first" t1)
    (by simp [NoNL]) (by rw [newCommit_parentHash, e1]; simp [NoNL, State.print, State.writeFile, hhd0])
    (by rw [newCommit_stagedFiles, hst1])
  have hrec2 := checkoutFiles_single_record (newCommit (envOf hash) s5 "second" t2)
    (by simp [NoNL]) (by rw [newCommit_parentHash, hhead5]; exact isDecimal_noNL hd1)
    (by rw [newCommit_stagedFiles, hst5])
  have hfs6 : (twoCommits (envOf hash) t1 t2).fs =
      (s5.fs.write (commitPath h2) (commitRecord (newCommit (envOf hash) s5 "second" t2))).write
        headPath ("ref: " ++ h2 ++ "\n") := by
    rw [hts, e6]; rfl
  have n1 : ("a.txt" : String) ≠ headPath := by decide
  have n2 : ∀ h, ("a.txt" : String) ≠ commitPath h := by
    intro h; simp [commitPath, commitsPath, String.ext_iff]
  have n3 : ("a.txt" : String) ≠ blobPath "552" := by decide
  have n4 : ∀ h, ("a.txt.conflict" : String) ≠ commitPath h := by
    intro h; simp [commitPath, commitsPath, String.ext_iff]
  have n5 : blobPath "532" ≠ blobPath "552" := by decide
  have n6 : blobPath "532" ≠ "a.txt" := by decide
  have n7 : refPath "feature" ≠ "a.txt" := by decide
  have n8 : ∀ h, commitPath h ≠ "a.txt" := fun h e => n2 h e.symm
  refine ⟨h1, if h1 = h2 then commitRecord (newCommit (envOf hash) s5 "second" t2)
      else commitRecord (newCommit (envOf hash) s1 "first" t1), hd1, ?_, ?_, ?_, ?_, ?_, ?_, ?_, ?_, ?_⟩
  · rw [hfs6, FS.write_of_ne _ _ n1, FS.write_of_ne _ _ (n2 h2), hfs5,
      FS.write_of_ne _ _ n3, FS.write_same]
  · rw [hfs6, FS.write_of_ne _ _ (blobPath_ne_headPath _),
      FS.write_of_ne _ _ (commitPath_ne_blobPath _ _).symm, hfs5, FS.write_same]
  · rw [hfs6, FS.write_of_ne _ _ (blobPath_ne_headPath _),
      FS.write_of_ne _ _ (commitPath_ne_blobPath _ _).symm, hfs5, FS.write_of_ne _ _ n5,
      FS.write_of_ne _ _ n6, FS.write_of_ne _ _ (blobPath_ne_refPath _ _),
      FS.write_of_ne _ _ (blobPath_ne_headPath _),
      FS.write_of_ne _ _ (commitPath_ne_blobPath _ _).symm, FS.write_same]
  · rw [hfs6, FS.write_of_ne _ _ (by decide), FS.write_of_ne _ _ (n4 h2), hfs5,
      FS.write_of_ne _ _ (by decide), FS.write_of_ne _ _ (by decide),
      FS.write_of_ne _ _ (by decide), FS.write_of_ne _ _ (by decide),
      FS.write_of_ne _ _ (n4 h1), FS.write_of_ne _ _ (by decide),
      hfs0 _ (by decide) (by decide)]
    rfl
  · rw [hfs6, FS.write_of_ne _ _ (refPath_ne_headPath _),
      FS.write_of_ne _ _ (commitPath_ne_refPath _ _).symm, hfs5,
      FS.write_of_ne _ _ (blobPath_ne_refPath _ _).symm, FS.write_of_ne _ _ n7,
      FS.write_same]
  · rw [hfs6, FS.write_of_ne _ _ (commitPath_ne_headPath _)]
    by_cases he : h1 = h2
    · rw [if_pos he, he, FS.write_same]
    · rw [if_neg he, FS.write_of_ne _ _ (fun e => he (commitPath_inj.1 e)), hfs5,
        FS.write_of_ne _ _ (commitPath_ne_blobPath _ _), FS.write_of_ne _ _ (n8 _),
        FS.write_of_ne _ _ (commitPath_ne_refPath _ _),
        FS.write_of_ne _ _ (commitPath_ne_headPath _), FS.write_same]
  · split
    · exact hrec2.1
    · exact hrec1.1
  · split
    · exact hrec2.2.1
    · exact hrec1.2.1
  · rw [hts, e6]; rfl

/-- The state after `checkout("feature")` in the two-commit scenario. -/
theorem checkout_twoCommits (hash : String → Nat) (t1 t2 : Int) :
    ∃ s, checkout (envOf hash) (twoCommits (envOf hash) t1 t2) "feature" = .returned s ∧
      s.fs "a.txt" = some "world" ∧
      s.fs (blobPath "532") = some "hello" ∧
      s.fs headPath = some "ref: refs/feature\n" ∧
      s.stagedFiles = [] := by
  obtain ⟨h1, record, hd1, ha, hb, hb', -, href, hrec, hfiles, -, hst⟩ :=
    twoCommits_state hash t1 t2
  rw [← firstLine_decimal hd1] at hrec
  have hc552 : computeHash "world" = "552" := by decide
  rw [checkout_found _ _ _ _ _ href hrec, hfiles,
    restoreFiles_cons _ _ _ _ _ _ ha (by rw [hc552]; exact hb)]
  simp only [envOf_canOpen, if_true, restoreFiles]
  refine ⟨_, rfl, ?_, ?_, ?_, ?_⟩
  · simp [FS.write_of_ne _ _ (show ("a.txt" : String) ≠ headPath by decide)]
  · simp [FS.write_of_ne _ _ (blobPath_ne_headPath "532"),
      FS.write_of_ne _ _ (show blobPath "532" ≠ "a.txt" by decide), hb']
  · simp
  · simpa using hst

/-- C1 (the code at the failing input): in the scenario of the specification, whatever
`std::hash` and the two commit times are, `checkout("feature")` succeeds and makes HEAD
point at `feature`, but `a.txt` holds `world` afterwards, not the `hello` that was
staged for the commit of `feature`, although `hello` is still stored as object `532`:
the object that `checkout` writes back is looked up under the checksum of the current
content of the file. -/
theorem checkout_feature_keeps_world (hash : String → Nat) (t1 t2 : Int) :
    ∃ s, checkout (envOf hash) (twoCommits (envOf hash) t1 t2) "feature" = .returned s ∧
      s.fs "a.txt" = some "world" ∧
      s.fs (blobPath "532") = some "hello" ∧
      s.fs headPath = some "ref: refs/feature\n" := by
  obtain ⟨s, h1, h2, h3, h4, -⟩ := checkout_twoCommits hash t1 t2
  exact ⟨s, h1, h2, h3, h4⟩

/-! ## C4: the conflict file of merge -/

theorem FS.write_write (fs : FS) (p a b : String) : (fs.write p a).write p b = fs.write p b := by
  funext q
  by_cases h : q = p <;> simp [FS.write, h]

theorem ne_append_conflict (file : String) : file ≠ file ++ ".conflict" := by
  intro h
  have := congrArg String.data h
  simp at this

theorem blobPath_ne_conflict (h file : String) (hd : IsDecimal h) :
    blobPath h ≠ file ++ ".conflict" := by
  intro e
  have e' := congrArg (fun s => s.data.getLast?) e
  simp only [blobPath, String.data_append] at e'
  rw [List.getLast?_append_of_ne_nil _ hd.1,
    List.getLast?_append_of_ne_nil _ (by decide)] at e'
  have h2 : (".conflict" : String).data.getLast? = some 't' := by decide
  rw [h2, List.getLast?_eq_getLast _ hd.1] at e'
  have h3 := hd.2 _ (List.getLast_mem hd.1)
  rw [Option.some.inj e'] at h3
  exact absurd h3 (by decide)

/-- One turn of the merge loop on a path that exists in the working tree, when the
object keyed by the checksum of the local content exists: the conflict file gets the
local content and that object between the markers. -/
theorem mergeFile_conflict (env : Env) (hw : ∀ p, env.canOpen p = true) (s : State)
    (file mine theirs : String) (hmine : s.fs file = some mine)
    (htheirs : s.fs (blobPath (computeHash mine)) = some theirs) :
    mergeFile env s file =
      .returned (((s.print ("CONFLICT: both modified " ++ file ++ "\n")).writeFile
        (file ++ ".conflict")
        ("" ++ "<<<<<<< HEAD\n" ++ (mine ++ "\n=======\n") ++ (theirs ++ "\n>>>>>>>\n"))).print
          ("Conflict written to " ++ file ++ ".conflict\n")) := by
  have n1 := ne_append_conflict file
  have n2 := blobPath_ne_conflict (computeHash mine) file (isDecimal_computeHash mine)
  simp [mergeFile, hmine, hw, State.send, readFile, FS.write_of_ne _ _ n1,
    FS.write_of_ne _ _ n2, htheirs, FS.write_write, State.writeFile, State.print]

/-- C4 (the code at the failing input): in the two-commit scenario, where `a.txt` was
committed as `hello` on `feature` and holds `world` in the working tree, whatever
`std::hash` and the times are, `merge("feature")` returns, leaves `a.txt` as it was,
and writes a conflict file that holds the local content `world` on both sides of the
markers: the content `hello` committed on the branch is not in it. -/
theorem merge_feature_conflict (hash : String → Nat) (t1 t2 t3 : Int) :
    ∃ s, merge (envOf hash) (twoCommits (envOf hash) t1 t2) "feature" t3 = .returned s ∧
      s.fs "a.txt.conflict" = some "<<<<<<< HEAD\nworld\n=======\nworld\n>>>>>>>\n" ∧
      s.fs "a.txt" = some "world" := by
  obtain ⟨h1, record, hd1, ha, hb, -, -, href, hrec, -, hfiles, hst⟩ :=
    twoCommits_state hash t1 t2
  rw [← firstLine_decimal hd1] at hrec
  have hc552 : computeHash "world" = "552" := by decide
  have hm := mergeFile_conflict (envOf hash) (envOf_canOpen hash) _ "a.txt" "world" "world" ha
    (by rw [hc552]; exact hb)
  simp only [merge, href, hrec, hfiles, mergeLoop, hm]
  refine ⟨_, rfl, ?_, ?_⟩
  · rw [commit_nonempty _ (envOf_canOpen hash) _ _ _ (by simp [insertStaged, hst])]
    have n1 : ("a.txt.conflict" : String) ≠ headPath := by decide
    have n2 : ∀ h, ("a.txt.conflict" : String) ≠ commitPath h := by
      intro h; simp [commitPath, commitsPath, String.ext_iff]
    simp only [print_fs, writeFile_fs]
    rw [FS.write_of_ne _ _ n1, FS.write_of_ne _ _ (n2 _)]
    have : ("a.txt" : String) ++ ".conflict" = "a.txt.conflict" := by decide
    rw [this, FS.write_same]
    decide
  · rw [commit_nonempty _ (envOf_canOpen hash) _ _ _ (by simp [insertStaged, hst])]
    have n1 : ("a.txt" : String) ≠ headPath := by decide
    have n2 : ∀ h, ("a.txt" : String) ≠ commitPath h := by
      intro h; simp [commitPath, commitsPath, String.ext_iff]
    simp only [print_fs, writeFile_fs]
    rw [FS.write_of_ne _ _ n1, FS.write_of_ne _ _ (n2 _),
      FS.write_of_ne _ _ (by decide)]
    exact ha

/-! ## C9: commit and the checked-out branch -/

theorem ref_hash_ne_symbolic (h branchName : String) (hd : IsDecimal h) :
    "ref: " ++ h ++ "\n" ≠ "ref: refs/" ++ branchName ++ "\n" := by
  intro e
  have e' := congrArg String.data e
  simp only [String.data_append] at e'
  obtain ⟨hne, hdig⟩ := hd
  cases hdata : h.data with
  | nil => exact hne hdata
  | cons c cs =>
    rw [hdata] at e'
    have hc : c = 'r' := by
      have := congrArg (fun l => l.drop 5) e'
      simp at this
      exact this.1
    have := hdig c (by rw [hdata]; exact List.mem_cons_self _ _)
    rw [hc] at this
    exact absurd this (by decide)

/-- What `commit` does with the disk: the record and HEAD are the only files it may
write. -/
theorem commit_fs_of_ne (env : Env) (s : State) (m : String) (t : Int) (p : String)
    (h1 : p ≠ headPath) (h2 : p ≠ commitPath (newCommit env s m t).hash) :
    (commit env s m t).fs p = s.fs p := by
  unfold commit saveCommit
  by_cases hst : s.stagedFiles.isEmpty = true
  · simp [hst]
  · by_cases hw1 : env.canOpen (commitPath (newCommit env s m t).hash) = true <;>
    by_cases hw2 : env.canOpen headPath = true <;>
    simp [hst, hw1, hw2, FS.write_of_ne _ _ h1, FS.write_of_ne _ _ h2]

/-- C9 (counterexample): in the two-commit scenario followed by a successful
`checkout("feature")`, staging `a.txt` and committing `third` does not leave HEAD at
`ref: refs/feature` with `refs/feature` holding the new hash, whatever `std::hash` and
the three commit times are. -/
theorem commit_after_checkout_counterexample :
    ¬ ∃ (hash : String → Nat) (t1 t2 t3 : Int), ∀ s,
      checkout (envOf hash) (twoCommits (envOf hash) t1 t2) "feature" = .returned s →
      (add (envOf hash) s "a.txt").stagedFiles ≠ [] →
      (commit (envOf hash) (add (envOf hash) s "a.txt") "third" t3).fs (refPath "feature") =
        some (commit (envOf hash) (add (envOf hash) s "a.txt") "third" t3).headHash ∧
      (commit (envOf hash) (add (envOf hash) s "a.txt") "third" t3).fs headPath =
        some "ref: refs/feature\n" := by
  rintro ⟨hash, t1, t2, t3, hclaim⟩
  obtain ⟨s, hret, ha, -, -, hst⟩ := checkout_twoCommits hash t1 t2
  have hadd := add_new (envOf hash) (envOf_canOpen hash) s "a.txt" "world" ha (by simp [hst])
  have hne : (add (envOf hash) s "a.txt").stagedFiles ≠ [] := by rw [hadd]; simp [State.print, State.writeFile]
  have hhead := (hclaim s hret hne).2
  rw [commit_nonempty _ (envOf_canOpen hash) _ _ _ hne] at hhead
  simp only [print_fs, writeFile_fs, FS.write_same, Option.some.injEq] at hhead
  exact ref_hash_ne_symbolic _ "feature" (newCommit_hash _ _ _ _) hhead

/-- C9 (amended): a successful commit (the staging set is not empty and HEAD can be
opened for output) makes the head hash the hash of the new commit, writes
`ref: <new hash>` to HEAD, which is never the symbolic `ref: refs/<b>`, and leaves every
branch ref `refs/<b>` as it was. -/
theorem commit_detaches_head (env : Env) (s : State) (m : String) (t : Int)
    (hst : s.stagedFiles ≠ []) (hw : env.canOpen headPath = true) :
    (commit env s m t).headHash = (newCommit env s m t).hash ∧
    (commit env s m t).fs headPath = some ("ref: " ++ (commit env s m t).headHash ++ "\n") ∧
    ∀ b, (commit env s m t).fs headPath ≠ some ("ref: refs/" ++ b ++ "\n") ∧
      (commit env s m t).fs (refPath b) = s.fs (refPath b) := by
  have hh : (commit env s m t).headHash = (newCommit env s m t).hash := by
    simp [commit, hst]
  have hf : (commit env s m t).fs headPath =
      some ("ref: " ++ (commit env s m t).headHash ++ "\n") := by
    rw [hh]
    unfold commit saveCommit
    simp [hst, hw]
  refine ⟨hh, hf, fun b => ⟨?_, ?_⟩⟩
  · rw [hf, hh]
    intro e
    exact ref_hash_ne_symbolic _ b (newCommit_hash _ _ _ _) (Option.some.inj e)
  · exact commit_fs_of_ne env s m t _ (refPath_ne_headPath b) (commitPath_ne_refPath _ b).symm

/-- C9 (witness): committing `first` at time 100 with `a.txt` staged on the sample
disk. -/
theorem commit_detaches_head_witness :
    (commit (envOf lengthHash) (add (envOf lengthHash) (fresh helloDisk) "a.txt") "first"
      100).fs headPath = some "ref: 110\n" :=
  (commit_detaches_head (envOf lengthHash) (add (envOf lengthHash) (fresh helloDisk) "a.txt")
    "first" 100 (by decide) rfl).2.1

/-! ## C2: the record of a commit under later operations -/

theorem add_fs_of_ne (env : Env) (s : State) (filename p : String)
    (hp : ∀ h, p ≠ blobPath h) : (add env s filename).fs p = s.fs p := by
  cases hf : s.fs filename with
  | none => simp [add, readFile, hf]
  | some content =>
    by_contra hne
    exact hp _ (add_fs_change env s filename content hf p hne).1

theorem branch_fs_of_ne (env : Env) (s : State) (name p : String)
    (hp : p ≠ normalize (refPath name)) : (branch env s name).fs p = s.fs p := by
  unfold branch
  by_cases h1 : s.headHash = ""
  · simp [h1]
  · by_cases h2 : env.canOpen (refPath name) = true <;> simp [h1, h2, FS.write_of_ne _ _ hp]

theorem restoreFiles_fs_of_not_mem (env : Env) (p : String) : ∀ (files : List String) (s : State),
    p ∉ files → (restoreFiles env files s).state.fs p = s.fs p := by
  intro files
  induction files with
  | nil => intro s _; rfl
  | cons file rest ih =>
    intro s hp
    have hpf : p ≠ file := fun e => hp (e ▸ List.mem_cons_self _ _)
    have hpr : p ∉ rest := fun e => hp (List.mem_cons_of_mem _ e)
    cases hcur : s.fs file with
    | none => simp only [restoreFiles, readFile, hcur]; rfl
    | some current =>
      cases hblob : s.fs (blobPath (computeHash current)) with
      | none => simp only [restoreFiles, readFile, hcur, hblob]; rfl
      | some content =>
        rw [restoreFiles_cons env s file current content rest hcur hblob]
        by_cases hw : env.canOpen file = true
        · rw [if_pos hw, ih _ hpr]
          simp [FS.write_of_ne _ _ hpf]
        · rw [if_neg hw, ih _ hpr]

theorem checkout_fs_of_not_mem (env : Env) (s : State) (branchName p : String)
    (hp : p ∉ checkoutTargets s branchName) (hh : p ≠ headPath) :
    (checkout env s branchName).state.fs p = s.fs p := by
  cases href : s.fs (refPath branchName) with
  | none => simp only [checkout, href]; rfl
  | some refText =>
    cases hrec : s.fs (commitPath (firstLine refText)) with
    | none => simp only [checkout, href, hrec]; rfl
    | some record =>
      simp only [checkoutTargets, href, hrec] at hp
      rw [checkout_found env s branchName refText record href hrec]
      have := restoreFiles_fs_of_not_mem env p _ s hp
      cases hres : restoreFiles env (checkoutFiles false (getlines record)) s with
      | threw s' what => rw [hres] at this; exact this
      | returned s' =>
        rw [hres] at this
        simp only [Outcome.state] at this ⊢
        by_cases hw : env.canOpen headPath = true
        · simp [hw, FS.write_of_ne _ _ hh, this]
        · simp [hw, this]

theorem send_fs_of_ne (s : State) (isOpen : Bool) (path text p : String) (hp : p ≠ path) :
    (s.send isOpen path text).fs p = s.fs p := by
  unfold State.send
  cases isOpen <;> simp [FS.write_of_ne _ _ hp]

/-- One turn of the merge loop writes to the conflict file of its path and to nothing
else. -/
theorem mergeFile_fs_of_ne (env : Env) (s : State) (file p : String)
    (hp : p ≠ file ++ ".conflict") : (mergeFile env s file).state.fs p = s.fs p := by
  unfold mergeFile
  cases hf : s.fs file with
  | none => simp [readFile, hf, Outcome.state]
  | some mine =>
    simp only [hf, Option.isSome_some, if_true]
    generalize hs1 : (if env.canOpen (file ++ ".conflict") = true then
      (s.print ("CONFLICT: both modified " ++ file ++ "\n")).writeFile (file ++ ".conflict") ""
      else s.print ("CONFLICT: both modified " ++ file ++ "\n")) = s1
    have h1 : s1.fs p = s.fs p := by
      rw [← hs1]; split <;> simp [FS.write_of_ne _ _ hp]
    generalize hs2 : s1.send (env.canOpen (file ++ ".conflict")) (file ++ ".conflict")
      "<<<<<<< HEAD\n" = s2
    have h2 : s2.fs p = s.fs p := by rw [← hs2, send_fs_of_ne _ _ _ _ _ hp, h1]
    cases hr1 : readFile s2.fs file with
    | error what => simpa [Outcome.state] using h2
    | ok mine2 =>
      simp only []
      generalize hs3 : s2.send (env.canOpen (file ++ ".conflict")) (file ++ ".conflict")
        (mine2 ++ "\n=======\n") = s3
      have h3 : s3.fs p = s.fs p := by rw [← hs3, send_fs_of_ne _ _ _ _ _ hp, h2]
      cases hr2 : readFile s3.fs file with
      | error what => simpa [Outcome.state] using h3
      | ok current =>
        simp only []
        cases hr3 : readFile s3.fs (blobPath (computeHash current)) with
        | error what => simpa [Outcome.state] using h3
        | ok theirs =>
          simp only [Outcome.state, print_fs]
          rw [send_fs_of_ne _ _ _ _ _ hp, h3]

theorem commitPath_ne_conflict (h file : String) (hd : IsDecimal h) :
    commitPath h ≠ file ++ ".conflict" := by
  intro e
  have e' := congrArg (fun s => s.data.getLast?) e
  simp only [commitPath, String.data_append] at e'
  rw [List.getLast?_append_of_ne_nil _ hd.1,
    List.getLast?_append_of_ne_nil _ (by decide)] at e'
  have h2 : (".conflict" : String).data.getLast? = some 't' := by decide
  rw [h2, List.getLast?_eq_getLast _ hd.1] at e'
  have h3 := hd.2 _ (List.getLast_mem hd.1)
  rw [Option.some.inj e'] at h3
  exact absurd h3 (by decide)

theorem mergeLoop_fs_of_ne (env : Env) (p : String) (hp : ∀ file, p ≠ file ++ ".conflict") :
    ∀ (files : List String) (s : State), (mergeLoop env files s).state.fs p = s.fs p := by
  intro files
  induction files with
  | nil => intro s; rfl
  | cons file rest ih =>
    intro s
    have := mergeFile_fs_of_ne env s file p (hp file)
    unfold mergeLoop
    cases hm : mergeFile env s file with
    | threw s' what => rw [hm] at this; exact this
    | returned s' =>
      rw [hm] at this
      simp only [ih]
      exact this

theorem merge_eq (env : Env) (s : State) (branchName : String) (now : Int) :
    (∃ s', mergeTree env s branchName = some s' ∧
      merge env s branchName now =
        .returned (commit env s' ("Merged branch: " ++ branchName) now) ∧
      ∀ p, (∀ file, p ≠ file ++ ".conflict") → s'.fs p = s.fs p) ∨
    (mergeTree env s branchName = none ∧
      ∀ p, (∀ file, p ≠ file ++ ".conflict") → (merge env s branchName now).state.fs p = s.fs p) := by
  cases href : s.fs (refPath branchName) with
  | none => right; simp [merge, mergeTree, href, Outcome.state]
  | some refText =>
    cases hrec : s.fs (commitPath (firstLine refText)) with
    | none => right; simp [merge, mergeTree, href, hrec, Outcome.state]
    | some record =>
      cases hl : mergeLoop env (mergeFiles false (getlines record)) s with
      | threw s' what =>
        right
        refine ⟨by simp [mergeTree, href, hrec, hl], fun p hp => ?_⟩
        have := mergeLoop_fs_of_ne env p hp (mergeFiles false (getlines record)) s
        rw [hl] at this
        simpa [merge, href, hrec, hl] using this
      | returned s' =>
        left
        refine ⟨s', by simp [mergeTree, href, hrec, hl], by simp [merge, href, hrec, hl],
          fun p hp => ?_⟩
        have := mergeLoop_fs_of_ne env p hp (mergeFiles false (getlines record)) s
        rw [hl] at this
        exact this

/-- A checkout that reads canonical paths other than the record of `h` does not have
that record among its targets. -/
theorem not_mem_checkoutTargets (s : State) (h branchName : String)
    (hsp : readsCanonical s branchName (checkoutFiles false)
      (fun f => decide (Canonical f ∧ f ≠ commitPath h)) = true) :
    commitPath h ∉ checkoutTargets s branchName := by
  cases href : s.fs (refPath branchName) with
  | none => simp [checkoutTargets, href]
  | some refText =>
    cases hrec : s.fs (commitPath (firstLine refText)) with
    | none => simp [checkoutTargets, href, hrec]
    | some record =>
      simp only [readsCanonical, href, hrec, Bool.and_eq_true, List.all_eq_true,
        decide_eq_true_eq] at hsp
      simp only [checkoutTargets, href, hrec]
      intro hm
      exact (hsp.2.2 _ hm).2 rfl

/-- A commit that is not made, or is made under another hash than `h`, leaves the record
of `h` as it is. -/
theorem commit_spares (env : Env) (h : String) (s : State) (message : String) (now : Int)
    (hsp : (s.stagedFiles.isEmpty || decide ((newCommit env s message now).hash ≠ h)) = true) :
    (commit env s message now).fs (commitPath h) = s.fs (commitPath h) := by
  by_cases hst : s.stagedFiles = []
  · rw [commit_empty env s message now hst]; rfl
  · have hsp' : (newCommit env s message now).hash ≠ h := by
      simpa [List.isEmpty_iff, hst] using hsp
    exact commit_fs_of_ne env s message now _ (commitPath_ne_headPath h)
      (fun e => hsp' (commitPath_inj.1 e).symm)

/-- A call that spares the record of a commit leaves the record as it is. -/
theorem step_spares (env : Env) (h : String) (hd : IsDecimal h) (s : State) (op : Op)
    (hsp : spares env s h op = true) :
    (step env s op).state.fs (commitPath h) = s.fs (commitPath h) := by
  cases op with
  | add filename => exact add_fs_of_ne env s filename _ (fun g => commitPath_ne_blobPath h g)
  | commit message now => exact commit_spares env h s message now hsp
  | branch name =>
    have hn : Canonical name := by simpa [spares] using hsp
    exact branch_fs_of_ne env s name _ (by
      rw [normalize_refPath hn]; exact commitPath_ne_refPath h name)
  | checkout branchName =>
    exact checkout_fs_of_not_mem env s branchName _
      (not_mem_checkoutTargets s h branchName hsp) (commitPath_ne_headPath h)
  | merge branchName now =>
    have hc : ∀ file, commitPath h ≠ file ++ ".conflict" :=
      fun file => commitPath_ne_conflict h file hd
    rcases merge_eq env s branchName now with ⟨s', htree, hm, hfs⟩ | ⟨-, hfs⟩
    · simp only [spares, htree, Bool.and_eq_true] at hsp
      simp only [step, hm, Outcome.state]
      rw [commit_spares env h s' _ now hsp.2]
      exact hfs _ hc
    · exact hfs _ hc

/-- A sequence of calls that all spare the record of a commit leaves the record as it
is. -/
theorem run_spared (env : Env) (h : String) (hd : IsDecimal h) : ∀ (ops : List Op) (s : State),
    sparedRun env h s ops = true →
    (run env s ops).state.fs (commitPath h) = s.fs (commitPath h) := by
  intro ops
  induction ops with
  | nil => intro s _; rfl
  | cons op ops ih =>
    intro s hsp
    simp only [sparedRun, Bool.and_eq_true] at hsp
    have h1 := step_spares env h hd s op hsp.1
    unfold run
    cases hs : step env s op with
    | threw s' what => rw [hs] at h1; exact h1
    | returned s' =>
      rw [hs] at h1
      simp only []
      rw [ih s' (by simpa [hs] using hsp.2)]
      exact h1

/-- The two commits `m` at the same time `now` over `a.txt`: the states in which they are made, and
the hash that both get. -/
theorem recommit_state (hash : String → Nat) (now : Int) :
    ∃ s1 s3 : State,
      firstCommit (envOf hash) now = commit (envOf hash) s1 "m" now ∧
      s1.stagedFiles = ["a.txt"] ∧ s1.headHash = "" ∧
      run (envOf hash) (firstCommit (envOf hash) now) [.add "a.txt", .commit "m" now] =
        .returned (commit (envOf hash) s3 "m" now) ∧
      s3.stagedFiles = ["a.txt"] ∧
      s3.headHash = (newCommit (envOf hash) s1 "m" now).hash ∧
      (newCommit (envOf hash) s3 "m" now).hash = (newCommit (envOf hash) s1 "m" now).hash := by
  have hw := envOf_canOpen hash
  have e1 := add_new (envOf hash) hw (init (envOf hash) (fresh helloDisk)) "a.txt" "hello"
    (by rw [init_hello_fs _ _ (by decide) (by decide)]; rfl) (by simp [fresh])
  generalize hs1 : add (envOf hash) (init (envOf hash) (fresh helloDisk)) "a.txt" = s1 at e1
  have hst1 : s1.stagedFiles = ["a.txt"] := by
    rw [e1]; simp [State.print, State.writeFile, fresh]
  have hhd1 : s1.headHash = "" := by rw [e1]; simp [State.print, State.writeFile, fresh]
  have e2 := commit_nonempty (envOf hash) hw s1 "m" now (by rw [hst1]; simp)
  have hfc : firstCommit (envOf hash) now = commit (envOf hash) s1 "m" now := by
    simp only [firstCommit, hs1]
  generalize hs2 : commit (envOf hash) s1 "m" now = s2 at e2 hfc
  have e3 := add_new (envOf hash) hw s2 "a.txt" "hello"
    (by
      rw [e2]
      simp only [print_fs, writeFile_fs]
      rw [FS.write_of_ne _ _ (by decide), FS.write_of_ne _ _ (by
        simp [commitPath, commitsPath, String.ext_iff]), e1]
      simp only [print_fs, writeFile_fs]
      rw [FS.write_of_ne _ _ (by decide), init_hello_fs _ _ (by decide) (by decide)]
      rfl)
    (by rw [e2]; simp [State.print, State.writeFile])
  generalize hs3 : add (envOf hash) s2 "a.txt" = s3 at e3
  have hst3 : s3.stagedFiles = ["a.txt"] := by rw [e3, e2]; rfl
  have hhd3 : s3.headHash = (newCommit (envOf hash) s1 "m" now).hash := by rw [e3, e2]; rfl
  refine ⟨s1, s3, hs2 ▸ hfc, hst1, hhd1, ?_, hst3, hhd3,
    newCommit_hash_congr _ _ _ _ _ (by rw [hst3, hst1])⟩
  rw [hfc]
  simp only [run, step, hs3]

/-- C2 (counterexample): after `a.txt` has been staged and committed as `m`, staging
`a.txt` again and committing `m` once more within the same second changes the record
stored under the hash of the first commit, whatever `std::hash` and the second are:
the second commit gets the same hash and its record, whose parent is that hash,
replaces the first. -/
theorem commit_record_counterexample :
    ¬ ∃ (hash : String → Nat) (now : Int),
      (run (envOf hash) (firstCommit (envOf hash) now) [.add "a.txt", .commit "m" now]).state.fs
          (commitPath (firstCommit (envOf hash) now).headHash) =
        (firstCommit (envOf hash) now).fs (commitPath (firstCommit (envOf hash) now).headHash) := by
  rintro ⟨hash, now, hclaim⟩
  obtain ⟨s1, s3, hfc, hst1, hhd1, hrun, hst3, hhd3, hsame⟩ := recommit_state hash now
  have hw := envOf_canOpen hash
  have hd : IsDecimal (newCommit (envOf hash) s1 "m" now).hash := newCommit_hash _ _ _ _
  have e2 := commit_nonempty (envOf hash) hw s1 "m" now (by rw [hst1]; simp)
  have e4 := commit_nonempty (envOf hash) hw s3 "m" now (by rw [hst3]; simp)
  have hhd2 : (firstCommit (envOf hash) now).headHash = (newCommit (envOf hash) s1 "m" now).hash := by
    rw [hfc, e2]; rfl
  rw [hrun, hhd2] at hclaim
  simp only [Outcome.state] at hclaim
  rw [hfc, e2, e4] at hclaim
  simp only [print_fs, writeFile_fs] at hclaim
  rw [FS.write_of_ne _ _ (commitPath_ne_headPath _), hsame, FS.write_same,
    FS.write_of_ne _ _ (commitPath_ne_headPath _), FS.write_same] at hclaim
  have hlines := congrArg getlines (Option.some.inj hclaim)
  rw [getlines_commitRecord _ (by simp [NoNL])
      (by rw [newCommit_parentHash, hhd3]; exact isDecimal_noNL hd)
      (by rw [newCommit_stagedFiles, hst3]; simp [NoNL]),
    getlines_commitRecord _ (by simp [NoNL]) (by rw [newCommit_parentHash, hhd1]; simp [NoNL])
      (by rw [newCommit_stagedFiles, hst1]; simp [NoNL])] at hlines
  simp only [newCommit_parentHash, hhd3, hhd1, List.cons.injEq] at hlines
  have := congrArg String.data hlines.2.2.1
  simp only [String.data_append, List.append_cancel_left_eq] at this
  exact hd.1 this

/-- C2 (amended): the record stored at `commits/<C.hash>` for a commit `C` made by
`commit` stays byte-identical through every later sequence of add, commit, branch,
checkout and merge calls, however the sequence ends, provided that the names and paths
the later calls open are in canonical form (the branch names, the added paths, and in
`checkout` and `merge` the hash on the first line of the ref and the paths listed in the
record of that hash), that no later commit that is made, directly or by `merge`, gets
the hash of `C` again, and that no later checkout finds the record file itself among
the paths of the record it reads. -/
theorem commit_record_immutable (env : Env) (s : State) (message : String) (now : Int)
    (ops : List Op)
    (hsp : sparedRun env (newCommit env s message now).hash (commit env s message now) ops
      = true) :
    (run env (commit env s message now) ops).state.fs
        (commitPath (newCommit env s message now).hash) =
      (commit env s message now).fs (commitPath (newCommit env s message now).hash) :=
  run_spared env _ (newCommit_hash env s message now) ops _ hsp

/-- C2 (witness): the record of the commit `first` after a second commit, a branch, a
checkout and a merge. -/
theorem commit_record_immutable_witness :
    (run (envOf lengthHash)
        (commit (envOf lengthHash) (add (envOf lengthHash) (fresh helloDisk) "a.txt") "first" 100)
        [.add "a.txt", .commit "second" 200, .branch "feature", .checkout "feature",
          .merge "feature" 300]).state.fs (commitPath "110") =
      some "Message: first\nTimestamp: 100\nParent: \nFiles:\na.txt\n" :=
  (commit_record_immutable (envOf lengthHash)
    (add (envOf lengthHash) (fresh helloDisk) "a.txt") "first" 100
    [.add "a.txt", .commit "second" 200, .branch "feature", .checkout "feature",
      .merge "feature" 300] (by decide)).trans (by decide)

/-! ## C3: the walk of log -/

theorem inRepo_commitPath (h : String) : InRepo (commitPath h) := by
  simp [InRepo, commitPath, commitsPath, List.isPrefixOf]

theorem inRepo_refPath (n : String) : InRepo (refPath n) := by
  simp [InRepo, refPath, repoPath, List.isPrefixOf]

theorem not_inRepo_conflict (f : String) (h : ¬ InRepo f) : ¬ InRepo (f ++ ".conflict") := by
  intro hc
  apply h
  simp only [InRepo, String.data_append] at hc ⊢
  rw [List.isPrefixOf_iff_prefix] at hc ⊢
  rcases List.prefix_or_prefix_of_prefix hc (List.prefix_append _ _) with h1 | h1
  · exact h1
  · exfalso
    have hmem := (List.mem_inits _ _).2 h1
    simp only [List.inits, List.map, List.mem_cons, List.mem_singleton, List.not_mem_nil,
      or_false] at hmem
    rcases hmem with e | e | e | e | e | e | e | e | e | e
    all_goals first
      | exact h (by simp only [InRepo, e]; decide)
      | (rw [e] at hc; exact absurd hc (by decide))

theorem Grounded.mono {fs fs' : FS}
    (hsub : ∀ g record, fs (commitPath g) = some record → fs' (commitPath g) = some record)
    {h : String} (hg : Grounded fs h) : Grounded fs' h := by
  induction hg with
  | root h record h1 h2 => exact .root h record (hsub _ _ h1) h2
  | child h record h1 _ ih => exact .child h record (hsub _ _ h1) ih

theorem foldl_print_fs (lines : List String) : ∀ s : State,
    (lines.foldl (fun s line => s.print (line ++ "\n")) s).fs = s.fs ∧
    (lines.foldl (fun s line => s.print (line ++ "\n")) s).cerr = s.cerr := by
  induction lines with
  | nil => intro s; exact ⟨rfl, rfl⟩
  | cons l rest ih => intro s; simpa using ih (s.print (l ++ "\n"))

theorem logLoop_succ (fuel : Nat) (s : State) (h record : String) (hne : h ≠ "")
    (hrec : s.fs (commitPath h) = some record) :
    logLoop (fuel + 1) s h =
      logLoop fuel ((getlines record).foldl (fun s line => s.print (line ++ "\n"))
        (s.print ("\n=== Commit " ++ h ++ " ===\n"))) (logParent record) := by
  simp only [logLoop, hne, if_false, hrec]

theorem logLoop_empty (fuel : Nat) (s : State) : logLoop fuel s "" = some s := by
  cases fuel <;> simp [logLoop]

/-- From a commit with a grounded chain of parents the loop of `log` comes to an end
without a failed read. -/
theorem logLoop_grounded {fs : FS} {h : String} (hg : Grounded fs h) :
    ∀ s : State, s.fs = fs → h ≠ "" →
      ∃ fuel s', logLoop fuel s h = some s' ∧ s'.cerr = s.cerr := by
  induction hg with
  | root h record h1 h2 =>
    intro s hs hne
    refine ⟨1, (getlines record).foldl (fun s line => s.print (line ++ "\n"))
      (s.print ("\n=== Commit " ++ h ++ " ===\n")), ?_, ?_⟩
    · rw [logLoop_succ 0 s h record hne (hs ▸ h1), h2, logLoop_empty]
    · exact (foldl_print_fs _ _).2
  | child h record h1 _ ih =>
    intro s hs hne
    by_cases hp : logParent record = ""
    · refine ⟨1, (getlines record).foldl (fun s line => s.print (line ++ "\n"))
        (s.print ("\n=== Commit " ++ h ++ " ===\n")), ?_, ?_⟩
      · rw [logLoop_succ 0 s h record hne (hs ▸ h1), hp, logLoop_empty]
      · exact (foldl_print_fs _ _).2
    · obtain ⟨fuel, s', hl, hc⟩ := ih
        ((getlines record).foldl (fun s line => s.print (line ++ "\n"))
          (s.print ("\n=== Commit " ++ h ++ " ===\n")))
        (by rw [(foldl_print_fs _ _).1]; exact hs) hp
      refine ⟨fuel + 1, s', ?_, ?_⟩
      · rw [logLoop_succ fuel s h record hne (hs ▸ h1)]; exact hl
      · rw [hc]; exact (foldl_print_fs _ _).2

/-- A change of state that touches no commit record, keeps the head and leaves decimal
hashes in the refs keeps the invariant, when the staged paths are still plain. -/
theorem Sound.frame {s s' : State} (hs : Sound s)
    (hrefs : ∀ n text, Canonical n → s'.fs (refPath n) = some text →
      s.fs (refPath n) = some text ∨ IsDecimal text)
    (hrecs : ∀ h, s'.fs (commitPath h) = s.fs (commitPath h))
    (hst : ∀ f ∈ s'.stagedFiles, Plain f) (hh : s'.headHash = s.headHash) : Sound s' := by
  have hmono : ∀ h, Grounded s.fs h → Grounded s'.fs h :=
    fun h hg => hg.mono (fun g record hr => by rw [hrecs]; exact hr)
  refine ⟨hst, ?_, ?_, ?_⟩
  · rw [hh]
    rcases hs.head with h | ⟨h1, h2⟩
    · exact Or.inl h
    · exact Or.inr ⟨h1, hmono _ h2⟩
  · intro n text hn h
    rcases hrefs n text hn h with h' | h'
    · exact hs.refs n text hn h'
    · exact h'
  · intro h record hd hr
    rw [hrecs] at hr
    obtain ⟨h1, h2, h3⟩ := hs.records h record hd hr
    exact ⟨h1, h2, hmono _ h3⟩

/-- Moving the head to a stored commit with a decimal hash keeps the invariant. -/
theorem Sound.setHead {s : State} (hs : Sound s) (h record : String) (hd : IsDecimal h)
    (hr : s.fs (commitPath h) = some record) : Sound { s with headHash := h } :=
  ⟨hs.staged, Or.inr ⟨hd, (hs.records h record hd hr).2.2⟩, hs.refs, hs.records⟩

theorem refPath_not_dir {n : String} (hn : n ≠ "") : refPath n ∉ repoDirs := by
  have hd : n.data ≠ [] := fun e => hn (String.ext e)
  simp [repoDirs, refPath, repoPath, objectsPath, commitsPath, String.ext_iff, hd]

theorem commitPath_not_dir {h : String} (hn : h ≠ "") : commitPath h ∉ repoDirs := by
  have hd : h.data ≠ [] := fun e => hn (String.ext e)
  simp [repoDirs, commitPath, repoPath, objectsPath, commitsPath, String.ext_iff, hd]

theorem sound_init (env : Env) (fs0 : FS) (hfresh : ∀ p, InRepo p → fs0 p = none) :
    Sound (init env (fresh fs0)) := by
  refine ⟨?_, Or.inl (by simp [fresh]), ?_, ?_⟩
  · intro f hf; simp [fresh] at hf
  · intro n text hn h
    rw [init_fs_of_ne _ _ _ (refPath_ne_headPath n) (refPath_not_dir (canonical_ne_empty hn))]
      at h
    have := hfresh _ (inRepo_refPath n)
    simp only [fresh] at h
    rw [this] at h
    cases h
  · intro h record hd hr
    rw [init_fs_of_ne _ _ _ (commitPath_ne_headPath h)
      (commitPath_not_dir (isDecimal_ne_empty hd))] at hr
    have := hfresh _ (inRepo_commitPath h)
    simp only [fresh] at hr
    rw [this] at hr
    cases hr

theorem add_stagedFiles (env : Env) (s : State) (filename : String) :
    ∀ g ∈ (add env s filename).stagedFiles, g = filename ∨ g ∈ s.stagedFiles := by
  intro g hg
  unfold add readFile writeBlob at hg
  cases hf : s.fs filename with
  | none => rw [hf] at hg; exact Or.inr (by simpa using hg)
  | some content =>
    rw [hf] at hg
    by_cases hst : filename ∈ s.stagedFiles
    · exact Or.inr (by simpa [hst] using hg)
    · by_cases hw : env.canOpen (blobPath (computeHash content)) = true
      · simp [hst, hw, insertStaged] at hg; exact hg
      · simp [hst, hw, insertStaged] at hg; exact hg

theorem add_headHash (env : Env) (s : State) (filename : String) :
    (add env s filename).headHash = s.headHash := by
  unfold add readFile writeBlob
  cases hf : s.fs filename with
  | none => rfl
  | some content =>
    by_cases hst : filename ∈ s.stagedFiles
    · simp [hst]
    · by_cases hw : env.canOpen (blobPath (computeHash content)) = true <;> simp [hst, hw]

theorem sound_add (env : Env) (s : State) (filename : String) (hs : Sound s)
    (hp : Plain filename) : Sound (add env s filename) := by
  refine hs.frame ?_ ?_ ?_ (add_headHash env s filename)
  · intro n text _ h
    rw [add_fs_of_ne env s filename _ (fun g => (blobPath_ne_refPath g n).symm)] at h
    exact Or.inl h
  · intro h
    exact add_fs_of_ne env s filename _ (fun g => commitPath_ne_blobPath h g)
  · intro f hf
    rcases add_stagedFiles env s filename f hf with h | h
    · exact h ▸ hp
    · exact hs.staged f h

theorem sound_print {s : State} (hs : Sound s) (text : String) : Sound (s.print text) :=
  ⟨hs.staged, hs.head, hs.refs, hs.records⟩

theorem sound_printErr {s : State} (hs : Sound s) (text : String) : Sound (s.printErr text) :=
  ⟨hs.staged, hs.head, hs.refs, hs.records⟩

theorem sound_branch (env : Env) (s : State) (name : String) (hs : Sound s)
    (hn : Canonical name) : Sound (branch env s name) := by
  unfold branch
  rw [normalize_refPath hn]
  by_cases h1 : s.headHash = ""
  · simp only [h1, if_true]; exact sound_print hs _
  · by_cases h2 : env.canOpen (refPath name) = true
    · simp only [h1, h2, if_true, if_false]
      apply sound_print
      have hd : IsDecimal s.headHash := by
        rcases hs.head with h | h
        · exact absurd h h1
        · exact h.1
      refine hs.frame ?_ ?_ hs.staged rfl
      · intro n text _ h
        by_cases hn : refPath n = refPath name
        · rw [writeFile_fs, hn, FS.write_same] at h
          cases h
          exact Or.inr hd
        · rw [writeFile_fs, FS.write_of_ne _ _ hn] at h
          exact Or.inl h
      · intro h
        rw [writeFile_fs, FS.write_of_ne _ _ (commitPath_ne_refPath h name)]
    · simp only [h1, h2, if_false]
      exact sound_printErr hs _

theorem not_inRepo_lines (m t p : String) :
    ¬ InRepo ("Message: " ++ m) ∧ ¬ InRepo ("Timestamp: " ++ t) ∧
    ¬ InRepo ("Parent: " ++ p) ∧ ¬ InRepo "Files:" := by
  simp [InRepo, String.data_append, List.isPrefixOf]

/-- What a commit that is made leaves behind when its record can be opened. -/
theorem commit_made (env : Env) (s : State) (message : String) (now : Int)
    (hst : s.stagedFiles ≠ [])
    (hwc : env.canOpen (commitPath (newCommit env s message now).hash) = true) :
    (commit env s message now).stagedFiles = [] ∧
    (commit env s message now).headHash = (newCommit env s message now).hash ∧
    (commit env s message now).fs (commitPath (newCommit env s message now).hash) =
      some (commitRecord (newCommit env s message now)) := by
  by_cases hh : env.canOpen headPath = true
  · simp [commit, hst, saveCommit, hwc, hh, FS.write_of_ne _ _ (commitPath_ne_headPath _)]
  · simp [commit, hst, saveCommit, hwc, hh]

/-- The walk from a commit that does not come to `y` is the same walk when the record
of `y` is replaced. -/
theorem grounded_off_chain {fs fs' : FS} {y : String}
    (hfs : ∀ g, g ≠ y → fs' (commitPath g) = fs (commitPath g)) :
    ∀ (fuel : Nat) (x : String), x ≠ "" → onChain fuel fs x y = false → Grounded fs x →
      Grounded fs' x := by
  intro fuel
  induction fuel with
  | zero => intro x _ h _; simp [onChain] at h
  | succ fuel ih =>
    intro x hx hc hg
    have hxy : x ≠ y := by
      intro e
      subst e
      simp [onChain, hx] at hc
    cases hrec : fs (commitPath x) with
    | none => cases hg <;> simp_all
    | some record =>
      have hc' : onChain fuel fs (logParent record) y = false := by
        simpa [onChain, hx, hxy, hrec] using hc
      have hrec' : fs' (commitPath x) = some record := by rw [hfs x hxy]; exact hrec
      by_cases hp : logParent record = ""
      · exact .root x record hrec' hp
      · have hgp : Grounded fs (logParent record) := by
          cases hg with
          | root _ r h1 h2 =>
            rw [hrec] at h1; cases h1; exact absurd h2 hp
          | child _ r h1 h2 =>
            rw [hrec] at h1; cases h1; exact h2
        exact .child x record hrec' (ih _ hp hc' hgp)

/-- Replacing the record of `y` by a record whose parent `x` has a grounded walk that
does not come to `y` keeps every grounded walk grounded. -/
theorem grounded_overwrite {fs fs' : FS} {y x record : String}
    (hfs : ∀ g, g ≠ y → fs' (commitPath g) = fs (commitPath g))
    (hy : fs' (commitPath y) = some record) (hp : logParent record = x)
    (hx : x = "" ∨ Grounded fs x) (fuel : Nat) (hc : onChain fuel fs x y = false) :
    Grounded fs' y ∧ ∀ g, Grounded fs g → Grounded fs' g := by
  have hgy : Grounded fs' y := by
    by_cases hx0 : x = ""
    · exact .root y record hy (by rw [hp, hx0])
    · rcases hx with h | h
      · exact absurd h hx0
      · exact .child y record hy (by rw [hp]; exact grounded_off_chain hfs fuel x hx0 hc h)
  refine ⟨hgy, fun g hg => ?_⟩
  induction hg with
  | root g r h1 h2 =>
    by_cases hgy' : g = y
    · exact hgy' ▸ hgy
    · exact .root g r (by rw [hfs g hgy']; exact h1) h2
  | child g r h1 _ ih =>
    by_cases hgy' : g = y
    · exact hgy' ▸ hgy
    · exact .child g r (by rw [hfs g hgy']; exact h1) ih

theorem sound_commit (env : Env) (hw : ∀ h, IsDecimal h → env.canOpen (commitPath h) = true)
    (fuel : Nat) (s : State) (message : String) (now : Int) (hs : Sound s) (hm : NoNL message)
    (hchain : s.stagedFiles = [] ∨
      onChain fuel s.fs s.headHash (newCommit env s message now).hash = false) :
    Sound (commit env s message now) := by
  by_cases hst : s.stagedFiles = []
  · rw [commit_empty env s message now hst]; exact sound_print hs _
  · have hoff : onChain fuel s.fs s.headHash (newCommit env s message now).hash = false := by
      rcases hchain with h | h
      · exact absurd h hst
      · exact h
    obtain ⟨e1, e2, e3⟩ := commit_made env s message now hst (hw _ (newCommit_hash _ _ _ _))
    have e4 := fun p h1 h2 => commit_fs_of_ne env s message now p h1 h2
    generalize commit env s message now = s' at e1 e2 e3 e4
    generalize hc : newCommit env s message now = c at hoff e2 e3 e4
    have hcm : c.message = message := by rw [← hc]; rfl
    have hcp : c.parentHash = s.headHash := by rw [← hc]; rfl
    have hcf : c.stagedFiles = s.stagedFiles := by rw [← hc]; rfl
    have hcd : IsDecimal c.hash := by rw [← hc]; exact newCommit_hash _ _ _ _
    have hparent : c.parentHash = "" ∨ IsDecimal c.parentHash := by
      rw [hcp]
      rcases hs.head with h | h
      · exact Or.inl h
      · exact Or.inr h.1
    have hpn : NoNL c.parentHash := by
      rcases hparent with h | h
      · rw [h]; simp [NoNL]
      · exact isDecimal_noNL h
    have hplain : ∀ f ∈ c.stagedFiles, Plain f := by rw [hcf]; exact hs.staged
    have hlines := getlines_commitRecord c (hcm ▸ hm) hpn (fun f hf => (hplain f hf).1)
    have hlp := logParent_commitRecord c (hcm ▸ hm) hparent
      (fun f hf => ⟨(hplain f hf).1, (hplain f hf).2.2.1⟩)
    have hfs : ∀ g, g ≠ c.hash → s'.fs (commitPath g) = s.fs (commitPath g) :=
      fun g hg => e4 _ (commitPath_ne_headPath g) (fun e => hg (commitPath_inj.1 e))
    obtain ⟨hgr, hmono⟩ := grounded_overwrite hfs e3 (hlp.trans hcp)
      (hs.head.imp id (fun h => h.2)) fuel hoff
    refine ⟨?_, Or.inr ⟨e2 ▸ hcd, e2 ▸ hgr⟩, ?_, ?_⟩
    · intro f hf; rw [e1] at hf; simp at hf
    · intro n text hn h
      rw [e4 _ (refPath_ne_headPath n) (commitPath_ne_refPath _ n).symm] at h
      exact hs.refs n text hn h
    · intro g record hd hr
      by_cases hg : g = c.hash
      · subst hg
        rw [e3] at hr
        cases hr
        refine ⟨?_, ?_, hgr⟩
        · intro l hl
          rw [hlines] at hl
          obtain ⟨n1, n2, n3, n4⟩ := not_inRepo_lines c.message (toString c.timestamp) c.parentHash
          simp only [List.mem_cons] at hl
          rcases hl with rfl | rfl | rfl | rfl | hl
          · exact n1
          · exact n2
          · exact n3
          · exact n4
          · exact (hplain l hl).2.1
        · intro f hf
          rw [mergeFiles_commitRecord c (hcm ▸ hm) hpn (fun f hf => (hplain f hf).1)] at hf
          exact hplain f (mem_mergeFiles _ _ _ hf)
      · rw [hfs g hg] at hr
        obtain ⟨h1, h2, h3⟩ := hs.records g record hd hr
        exact ⟨h1, h2, hmono _ h3⟩

theorem restoreFiles_fields (env : Env) : ∀ (files : List String) (s : State),
    (restoreFiles env files s).state.stagedFiles = s.stagedFiles ∧
    (restoreFiles env files s).state.headHash = s.headHash := by
  intro files
  induction files with
  | nil => intro s; exact ⟨rfl, rfl⟩
  | cons file rest ih =>
    intro s
    cases hcur : s.fs file with
    | none => simp only [restoreFiles, readFile, hcur]; exact ⟨rfl, rfl⟩
    | some current =>
      cases hblob : s.fs (blobPath (computeHash current)) with
      | none => simp only [restoreFiles, readFile, hcur, hblob]; exact ⟨rfl, rfl⟩
      | some content =>
        rw [restoreFiles_cons env s file current content rest hcur hblob]
        by_cases hw : env.canOpen file = true
        · rw [if_pos hw]; simpa using ih ((s.writeFile file content).print _)
        · rw [if_neg hw]; exact ih s

theorem sound_checkout (env : Env) (s : State) (branchName : String) (hs : Sound s)
    (hn : Canonical branchName) : Sound (checkout env s branchName).state := by
  cases href : s.fs (refPath branchName) with
  | none =>
    simp only [checkout, href, Outcome.state]
    exact sound_printErr hs _
  | some refText =>
    have hd : IsDecimal refText := hs.refs _ _ hn href
    have hfl : firstLine refText = refText := firstLine_decimal hd
    cases hrec : s.fs (commitPath (firstLine refText)) with
    | none =>
      simp only [checkout, href, hrec, Outcome.state]
      exact sound_printErr hs _
    | some record =>
      rw [checkout_found env s branchName refText record href hrec]
      rw [hfl] at hrec ⊢
      obtain ⟨hlines, -, -⟩ := hs.records refText record hd hrec
      have hframe : ∀ p, InRepo p →
          (restoreFiles env (checkoutFiles false (getlines record)) s).state.fs p = s.fs p :=
        fun p hp => restoreFiles_fs_of_not_mem env p _ s
          (fun hmem => hlines p (mem_checkoutFiles _ _ _ hmem) hp)
      have hfields := restoreFiles_fields env (checkoutFiles false (getlines record)) s
      have hs1 : Sound (restoreFiles env (checkoutFiles false (getlines record)) s).state := by
        refine hs.frame ?_ ?_ ?_ hfields.2
        · intro n text _ h
          rw [hframe _ (inRepo_refPath n)] at h
          exact Or.inl h
        · intro h
          exact hframe _ (inRepo_commitPath h)
        · rw [hfields.1]; exact hs.staged
      cases hres : restoreFiles env (checkoutFiles false (getlines record)) s with
      | threw s1 what =>
        rw [hres] at hs1
        exact hs1
      | returned s1 =>
        rw [hres] at hframe hs1
        simp only [Outcome.state] at hframe hs1 ⊢
        have hs2 : Sound (if env.canOpen headPath = true then
            s1.writeFile headPath ("ref: refs/" ++ branchName ++ "\n") else s1) := by
          split
          · refine hs1.frame ?_ ?_ hs1.staged rfl
            · intro n text _ h
              rw [writeFile_fs, FS.write_of_ne _ _ (refPath_ne_headPath n)] at h
              exact Or.inl h
            · intro h
              rw [writeFile_fs, FS.write_of_ne _ _ (commitPath_ne_headPath h)]
          · exact hs1
        have hrec2 : (if env.canOpen headPath = true then
            s1.writeFile headPath ("ref: refs/" ++ branchName ++ "\n") else s1).fs
              (commitPath refText) = some record := by
          split
          · rw [writeFile_fs, FS.write_of_ne _ _ (commitPath_ne_headPath _),
              hframe _ (inRepo_commitPath _)]
            exact hrec
          · rw [hframe _ (inRepo_commitPath _)]; exact hrec
        exact sound_print (hs2.setHead refText record hd hrec2) _

/-- One turn of the merge loop leaves the staging set and the head as they are. -/
theorem mergeFile_fields (env : Env) (s : State) (file : String) :
    (mergeFile env s file).state.stagedFiles = s.stagedFiles ∧
    (mergeFile env s file).state.headHash = s.headHash := by
  have hsend : ∀ (s : State) (b : Bool) (p t : String),
      (s.send b p t).stagedFiles = s.stagedFiles ∧ (s.send b p t).headHash = s.headHash := by
    intro s b p t
    cases b <;> exact ⟨rfl, rfl⟩
  unfold mergeFile
  cases hf : s.fs file with
  | none => simp [readFile, hf, Outcome.state]
  | some mine =>
    simp only [hf, Option.isSome_some, if_true]
    generalize hs1 : (if env.canOpen (file ++ ".conflict") = true then
      (s.print ("CONFLICT: both modified " ++ file ++ "\n")).writeFile (file ++ ".conflict") ""
      else s.print ("CONFLICT: both modified " ++ file ++ "\n")) = s1
    have h1 : s1.stagedFiles = s.stagedFiles ∧ s1.headHash = s.headHash := by
      rw [← hs1]; split <;> exact ⟨rfl, rfl⟩
    generalize hs2 : s1.send (env.canOpen (file ++ ".conflict")) (file ++ ".conflict")
      "<<<<<<< HEAD\n" = s2
    have h2 : s2.stagedFiles = s.stagedFiles ∧ s2.headHash = s.headHash := by
      rw [← hs2, (hsend _ _ _ _).1, (hsend _ _ _ _).2]; exact h1
    cases hr1 : readFile s2.fs file with
    | error what => simpa [Outcome.state] using h2
    | ok mine2 =>
      simp only []
      generalize hs3 : s2.send (env.canOpen (file ++ ".conflict")) (file ++ ".conflict")
        (mine2 ++ "\n=======\n") = s3
      have h3 : s3.stagedFiles = s.stagedFiles ∧ s3.headHash = s.headHash := by
        rw [← hs3, (hsend _ _ _ _).1, (hsend _ _ _ _).2]; exact h2
      cases hr2 : readFile s3.fs file with
      | error what => simpa [Outcome.state] using h3
      | ok current =>
        simp only []
        cases hr3 : readFile s3.fs (blobPath (computeHash current)) with
        | error what => simpa [Outcome.state] using h3
        | ok theirs =>
          simp only [Outcome.state, print_stagedFiles, print_headHash]
          rw [(hsend _ _ _ _).1, (hsend _ _ _ _).2]; exact h3

theorem mergeLoop_sound (env : Env) : ∀ (files : List String) (s : State),
    (∀ f ∈ files, Plain f) → Sound s → Sound (mergeLoop env files s).state := by
  intro files
  induction files with
  | nil => intro s _ hs; exact hs
  | cons file rest ih =>
    intro s hpl hs
    have hpf : Plain file := hpl file (List.mem_cons_self _ _)
    have hnr : ¬ InRepo (file ++ ".conflict") := not_inRepo_conflict file hpf.2.1
    have hfs : ∀ p, InRepo p → (mergeFile env s file).state.fs p = s.fs p :=
      fun p hp => mergeFile_fs_of_ne env s file p (fun e => hnr (e ▸ hp))
    have hfields := mergeFile_fields env s file
    have hs2 : Sound (mergeFile env s file).state := by
      refine hs.frame ?_ ?_ ?_ hfields.2
      · intro n text _ h
        rw [hfs _ (inRepo_refPath n)] at h
        exact Or.inl h
      · intro h
        exact hfs _ (inRepo_commitPath h)
      · rw [hfields.1]; exact hs.staged
    unfold mergeLoop
    cases hm : mergeFile env s file with
    | threw s2 what => rw [hm] at hs2; exact hs2
    | returned s2 =>
      rw [hm] at hs2
      simp only [Outcome.state] at hs2
      refine ih _ (fun f hf => hpl f (List.mem_cons_of_mem _ hf)) ?_
      refine ⟨?_, hs2.head, hs2.refs, hs2.records⟩
      intro f hf
      simp only [insertStaged] at hf
      split at hf
      · exact hs2.staged f hf
      · rcases List.mem_cons.1 hf with h | h
        · exact h ▸ hpf
        · exact hs2.staged f h

theorem sound_merge (env : Env) (hw : ∀ h, IsDecimal h → env.canOpen (commitPath h) = true)
    (fuel : Nat) (s : State) (branchName : String) (now : Int) (hs : Sound s)
    (hn : Canonical branchName) (hb : NoNL branchName)
    (hchain : ∀ s1, mergeTree env s branchName = some s1 →
      s1.stagedFiles = [] ∨
      onChain fuel s1.fs s1.headHash
        (newCommit env s1 ("Merged branch: " ++ branchName) now).hash = false) :
    Sound (merge env s branchName now).state := by
  cases href : s.fs (refPath branchName) with
  | none =>
    simp only [merge, href, Outcome.state]
    exact sound_printErr hs _
  | some refText =>
    have hd : IsDecimal refText := hs.refs _ _ hn href
    have hfl : firstLine refText = refText := firstLine_decimal hd
    cases hrec : s.fs (commitPath (firstLine refText)) with
    | none =>
      simp only [merge, href, hrec, Outcome.state]
      exact sound_printErr hs _
    | some record =>
      have hplain := (hs.records refText record hd (hfl ▸ hrec)).2.1
      have hs1 := mergeLoop_sound env _ s hplain hs
      cases hl : mergeLoop env (mergeFiles false (getlines record)) s with
      | threw s1 what =>
        rw [hl] at hs1
        simp only [merge, href, hrec, hl, Outcome.state]
        exact hs1
      | returned s1 =>
        rw [hl] at hs1
        simp only [merge, href, hrec, hl, Outcome.state]
        exact sound_commit env hw fuel s1 _ now hs1 (noNL_append (by simp [NoNL]) hb)
          (hchain s1 (by simp [mergeTree, href, hrec, hl]))

/-- Every admissible call keeps the invariant, also when it ends with an exception. -/
theorem sound_step (env : Env) (hw : ∀ h, IsDecimal h → env.canOpen (commitPath h) = true)
    (fuel : Nat) (s : State) (op : Op) (hs : Sound s)
    (hok : admissible fuel env s op = true) : Sound (step env s op).state := by
  cases op with
  | add filename => exact sound_add env s filename hs (by simpa [admissible] using hok)
  | commit message now =>
    simp only [admissible, Bool.and_eq_true, decide_eq_true_eq, Bool.or_eq_true,
      List.isEmpty_iff, Bool.not_eq_true'] at hok
    exact sound_commit env hw fuel s message now hs hok.1 hok.2
  | branch name => exact sound_branch env s name hs (by simpa [admissible] using hok)
  | checkout branchName =>
    exact sound_checkout env s branchName hs (by simpa [admissible] using hok)
  | merge branchName now =>
    simp only [admissible, Bool.and_eq_true, decide_eq_true_eq] at hok
    refine sound_merge env hw fuel s branchName now hs hok.1.1 hok.1.2 ?_
    intro s1 htree
    have := hok.2
    rw [htree] at this
    simpa using this

/-- Every admissible sequence of calls keeps the invariant, also when it ends with an
exception. -/
theorem sound_run (env : Env) (hw : ∀ h, IsDecimal h → env.canOpen (commitPath h) = true)
    (fuel : Nat) : ∀ (ops : List Op) (s : State),
    Sound s → admissibleRun fuel env s ops = true → Sound (run env s ops).state := by
  intro ops
  induction ops with
  | nil => intro s hs _; exact hs
  | cons op ops ih =>
    intro s hs hok
    simp only [admissibleRun, Bool.and_eq_true] at hok
    have h1 := sound_step env hw fuel s op hs hok.1
    unfold run
    cases hstep : step env s op with
    | threw s1 what => rw [hstep] at h1; exact h1
    | returned s1 =>
      rw [hstep] at h1
      have hok2 := hok.2
      rw [hstep] at hok2
      exact ih s1 h1 hok2

theorem logLoop_cycle (h record : String) (hne : h ≠ "") (hp : logParent record = h) :
    ∀ (fuel : Nat) (s : State), s.fs (commitPath h) = some record → logLoop fuel s h = none := by
  intro fuel
  induction fuel with
  | zero => intro s _; simp [logLoop, hne]
  | succ fuel ih =>
    intro s hrec
    rw [logLoop_succ fuel s h record hne hrec, hp]
    apply ih
    rw [(foldl_print_fs _ _).1]
    exact hrec

/-- C3 (counterexample): after `init`, staging `a.txt` and committing it as `m` twice
within the same second leads to a state in which the walk of `log` never ends,
whatever `std::hash` and the second are: the second commit gets the hash of the first,
its record replaces the first record and names that same hash as its parent. -/
theorem log_walk_counterexample :
    ¬ ∃ (hash : String → Nat) (now : Int) (fuel : Nat),
      (log fuel (run (envOf hash) (firstCommit (envOf hash) now)
        [.add "a.txt", .commit "m" now]).state).isSome = true := by
  rintro ⟨hash, now, fuel, hsome⟩
  obtain ⟨s1, s3, -, hst1, -, hrun, hst3, hhd3, hsame⟩ := recommit_state hash now
  have hw := envOf_canOpen hash
  have hd : IsDecimal (newCommit (envOf hash) s1 "m" now).hash := newCommit_hash _ _ _ _
  rw [hrun] at hsome
  simp only [Outcome.state] at hsome
  have e4 := commit_nonempty (envOf hash) hw s3 "m" now (by rw [hst3]; simp)
  have hhead : (commit (envOf hash) s3 "m" now).headHash = (newCommit (envOf hash) s1 "m" now).hash := by
    rw [e4]; exact hsame
  have hrec : (commit (envOf hash) s3 "m" now).fs (commitPath (newCommit (envOf hash) s1 "m" now).hash) =
      some (commitRecord (newCommit (envOf hash) s3 "m" now)) := by
    rw [e4]
    simp only [print_fs, writeFile_fs]
    rw [FS.write_of_ne _ _ (commitPath_ne_headPath _), hsame, FS.write_same]
  have hparent : logParent (commitRecord (newCommit (envOf hash) s3 "m" now)) =
      (newCommit (envOf hash) s1 "m" now).hash := by
    rw [logParent_commitRecord _ (by simp [NoNL]) (by rw [newCommit_parentHash, hhd3]; exact Or.inr hd)
      (by rw [newCommit_stagedFiles, hst3]; intro f hf; simp at hf; subst hf; decide)]
    exact hhd3
  have hnone := logLoop_cycle _ _ (isDecimal_ne_empty hd) hparent fuel _ hrec
  rw [log, hhead, if_neg (isDecimal_ne_empty hd), hnone] at hsome
  cases hsome

/-- C3 (amended): when the commit records can be opened for output and the disk holds
nothing inside `.minigit/` before `init`, then in every state reached from `init` by a
sequence of add, commit, branch, checkout and merge calls (also the state in which a
call ends the sequence with an exception) in which added paths are plain (canonical
form, no line break, outside `.minigit/`, not starting with `Parent:`), branch names
are in canonical form, commit messages and merged branch names have no line break, and
no commit that is made gets the hash of a commit on the chain of parents of the head it
is made on, the head is empty or its chain of `Parent` entries ends in a stored record
with an empty `Parent`, and the walk of `log` comes to an end after finitely many
commits without a failed read.  The chains of the side condition are followed for
`fuel` records, for any `fuel`. -/
theorem log_terminates (env : Env)
    (hw : ∀ h, IsDecimal h → env.canOpen (commitPath h) = true) (fs0 : FS)
    (hfresh : ∀ p, InRepo p → fs0 p = none) (fuel : Nat) (ops : List Op)
    (hok : admissibleRun fuel env (init env (fresh fs0)) ops = true) :
    ((run env (init env (fresh fs0)) ops).state.headHash = "" ∨
      Grounded (run env (init env (fresh fs0)) ops).state.fs
        (run env (init env (fresh fs0)) ops).state.headHash) ∧
    ∃ n s', log n (run env (init env (fresh fs0)) ops).state = some s' ∧
      s'.cerr = (run env (init env (fresh fs0)) ops).state.cerr := by
  have hs := sound_run env hw fuel ops _ (sound_init env fs0 hfresh) hok
  generalize (run env (init env (fresh fs0)) ops).state = s at hs
  rcases hs.head with h | ⟨-, hg⟩
  · exact ⟨Or.inl h, 0, s.print "No commits yet.\n", by simp [log, h], rfl⟩
  · refine ⟨Or.inr hg, ?_⟩
    by_cases h : s.headHash = ""
    · exact ⟨0, s.print "No commits yet.\n", by simp [log, h], rfl⟩
    · obtain ⟨n, s', h1, h2⟩ := logLoop_grounded hg s rfl h
      exact ⟨n, s', by simp [log, h, h1], h2⟩

/-- C3 (witness): two commits, a branch, a checkout and a merge on the sample disk. -/
theorem log_terminates_witness :
    ∃ n s', log n (run (envOf lengthHash) (init (envOf lengthHash) (fresh helloDisk))
        [.add "a.txt", .commit "first" 100, .branch "feature", .add "a.txt",
          .commit "second" 200, .checkout "feature", .merge "feature" 300]).state = some s' ∧
      s'.cerr = [] :=
  (log_terminates (envOf lengthHash) (fun h _ => envOf_canOpen lengthHash _) helloDisk
    (by
      intro p hp
      simp only [helloDisk]
      rw [if_neg]
      rintro rfl
      exact absurd hp (by decide))
    5
    [.add "a.txt", .commit "first" 100, .branch "feature", .add "a.txt",
      .commit "second" 200, .checkout "feature", .merge "feature" 300]
    (by decide)).2

/-! ## C11 and C14: sums do not see the order -/

theorem addSize_right_comm (s a b : Nat) : addSize (addSize s a) b = addSize (addSize s b) a := by
  simp only [addSize]
  omega

theorem foldl_addSize_perm {α : Type} (g : α → Nat) {l₁ l₂ : List α} (p : l₁.Perm l₂)
    (init : Nat) :
    l₁.foldl (fun sum x => addSize sum (g x)) init =
      l₂.foldl (fun sum x => addSize sum (g x)) init :=
  p.foldl_eq' (fun _ _ _ _ z => addSize_right_comm z _ _) init

/-- C11: for every message, timestamp and parent, two path lists that are permutations
of one another give the same commit hash. -/
theorem generateCommitHash_perm (env : Env) (c1 c2 : Commit)
    (hm : c1.message = c2.message) (ht : c1.timestamp = c2.timestamp)
    (hf : c1.stagedFiles.Perm c2.stagedFiles) :
    generateCommitHash env c1 = generateCommitHash env c2 := by
  simp only [generateCommitHash, commitSum, hm, ht]
  rw [foldl_addSize_perm env.strHash hf]

/-- C11 (witness): `a.txt`, `b.txt` staged in the two possible orders. -/
theorem generateCommitHash_perm_witness :
    generateCommitHash (envOf lengthHash)
        { hash := "", message := "m", timestamp := 7, stagedFiles := ["a.txt", "bb.txt"],
          parentHash := "" } =
      generateCommitHash (envOf lengthHash)
        { hash := "", message := "m", timestamp := 7, stagedFiles := ["bb.txt", "a.txt"],
          parentHash := "" } :=
  generateCommitHash_perm _ _ _ rfl rfl (List.Perm.swap _ _ _)

/-- C14 (counterexample): `computeHash("ab")` does not differ from `computeHash("ba")`;
both are `195`. -/
theorem computeHash_order_counterexample :
    ¬ (computeHash "ab" ≠ computeHash "ba") ∧ computeHash "ab" = "195" := by
  decide

/-- C14 (amended): `computeHash` is a function of the bytes of its input that does not
see their order: two inputs whose byte sequences are permutations of one another have
the same fingerprint. -/
theorem computeHash_perm (a b : String) (h : a.data.Perm b.data) :
    computeHash a = computeHash b := by
  simp only [computeHash]
  rw [foldl_addSize_perm (fun c : Char => c.toNat % 256) h]

/-- C14 (witness): `listen` and `silent`. -/
theorem computeHash_perm_witness : computeHash "listen" = computeHash "silent" :=
  computeHash_perm "listen" "silent" (by decide)

/-! ## C12: nothing to commit -/

/-- C12: with an empty staging set `commit` only prints `No changes to commit.`: the
disk (records, HEAD, refs, objects), the head hash and the staging set stay as they
are, whatever the environment, the message and the time. -/
theorem commit_nothing (env : Env) (s : State) (message : String) (now : Int)
    (hst : s.stagedFiles = []) :
    commit env s message now = s.print "No changes to commit.\n" ∧
    (commit env s message now).fs = s.fs ∧
    (commit env s message now).headHash = s.headHash ∧
    (commit env s message now).stagedFiles = s.stagedFiles ∧
    (commit env s message now).cerr = s.cerr := by
  rw [commit_empty env s message now hst]
  exact ⟨rfl, rfl, rfl, rfl, rfl⟩

/-- C12 (witness): `commit` right after `init` on the sample disk. -/
theorem commit_nothing_witness :
    commit (envOf lengthHash) (init (envOf lengthHash) (fresh helloDisk)) "first" 100 =
      (init (envOf lengthHash) (fresh helloDisk)).print "No changes to commit.\n" :=
  (commit_nothing (envOf lengthHash) (init (envOf lengthHash) (fresh helloDisk)) "first" 100
    rfl).1

/-! ## C13: a successful commit -/

/-- C13: with a non-empty staging set, `commit` builds a commit with the given message,
the head hash before the call as parent and exactly the staged paths, each once, as
path list; afterwards the head hash is the hash of that commit and the staging set is
empty; the record it writes, which is on disk whenever the record file can be opened
for output, holds that message, parent and path list. -/
theorem commit_success (env : Env) (s : State) (message : String) (now : Int)
    (hst : s.stagedFiles ≠ []) (hnd : s.stagedFiles.Nodup) :
    (newCommit env s message now).message = message ∧
    (newCommit env s message now).parentHash = s.headHash ∧
    (newCommit env s message now).stagedFiles = s.stagedFiles ∧
    (newCommit env s message now).stagedFiles.Nodup ∧
    (newCommit env s message now).hash = generateCommitHash env (newCommit env s message now) ∧
    (commit env s message now).headHash = (newCommit env s message now).hash ∧
    (commit env s message now).stagedFiles = [] ∧
    (env.canOpen (commitPath (newCommit env s message now).hash) = true →
      (commit env s message now).fs (commitPath (newCommit env s message now).hash) =
        some ("Message: " ++ message ++ "\n" ++ "Timestamp: " ++ toString now ++ "\n" ++
          "Parent: " ++ s.headHash ++ "\n" ++ "Files:\n" ++ filesText s.stagedFiles)) := by
  refine ⟨rfl, rfl, rfl, hnd, rfl, ?_, ?_, ?_⟩
  · simp [commit, hst]
  · simp [commit, hst]
  · intro hw
    unfold commit saveCommit
    by_cases hw2 : env.canOpen headPath = true
    · simp [hst, hw, hw2, FS.write_of_ne _ _ (commitPath_ne_headPath _), commitRecord]
    · simp [hst, hw, hw2, commitRecord]

/-- C13 (witness): the first commit on the sample disk. -/
theorem commit_success_witness :
    (commit (envOf lengthHash) (add (envOf lengthHash) (fresh helloDisk) "a.txt") "first"
      100).fs (commitPath "110") =
        some "Message: first\nTimestamp: 100\nParent: \nFiles:\na.txt\n" :=
  (commit_success (envOf lengthHash) (add (envOf lengthHash) (fresh helloDisk) "a.txt")
    "first" 100 (by decide) (by decide)).2.2.2.2.2.2.2 rfl

/-! ## C15: what add stores -/

theorem init_env_congr (env env' : Env) (h : env.canOpen = env'.canOpen) (s : State) :
    init env s = init env' s := by
  simp [init, h]

theorem add_env_congr (env env' : Env) (h : env.canOpen = env'.canOpen) (s : State)
    (filename : String) : add env s filename = add env' s filename := by
  simp [add, writeBlob, h]

/-- C15 (counterexample): after `init`, staging `a.txt` with the content `hello`,
overwriting it with `world` and calling `add("a.txt")` again, the object store does
not hold `world` under `computeHash("world")`, whatever `std::hash` is: the second
call finds the path staged and stores nothing. -/
theorem add_restaged_counterexample :
    ¬ ∃ hash : String → Nat,
      (restaged (envOf hash)).fs (blobPath (computeHash "world")) = some "world" := by
  rintro ⟨hash, h⟩
  have e : restaged (envOf hash) = restaged (envOf lengthHash) := by
    simp only [restaged]
    rw [init_env_congr (envOf hash) (envOf lengthHash) rfl,
      add_env_congr (envOf hash) (envOf lengthHash) rfl,
      add_env_congr (envOf hash) (envOf lengthHash) rfl]
  rw [e] at h
  exact absurd h (by decide)

/-- C15 (amended): for a path whose file exists and which is not yet in the staging
set, `add` stages the path and, when the object file can be opened for output, the
object store then holds the bytes of the file under their checksum; for a path that is
already staged, `add` only reports it and stores nothing; for an absent file, `add`
reports the failure and changes neither the staging set nor the disk. -/
theorem add_stores (env : Env) (s : State) (filename : String) :
    (∀ content, s.fs filename = some content → filename ∉ s.stagedFiles →
      filename ∈ (add env s filename).stagedFiles ∧
      (env.canOpen (blobPath (computeHash content)) = true →
        (add env s filename).fs (blobPath (computeHash content)) = some content)) ∧
    (∀ content, s.fs filename = some content → filename ∈ s.stagedFiles →
      add env s filename = s.print (filename ++ " is already staged.\n")) ∧
    (s.fs filename = none →
      add env s filename =
        s.printErr ("Add failed: " ++ ("File not found: " ++ filename) ++ "\n")) := by
  refine ⟨?_, ?_, ?_⟩
  · intro content h hst
    refine ⟨add_staged env s filename content h, fun hw => ?_⟩
    simp [add, readFile, h, hst, writeBlob, hw]
  · intro content h hst
    exact add_of_staged env s filename content h hst
  · intro h
    simp [add, readFile, h]

/-- C15 (witness): the first `add` of `a.txt` on the sample disk stores `hello` as
object `532`. -/
theorem add_stores_witness :
    (add (envOf lengthHash) (fresh helloDisk) "a.txt").fs (blobPath "532") = some "hello" :=
  ((add_stores (envOf lengthHash) (fresh helloDisk) "a.txt").1 "hello" rfl (by decide)).2 rfl

theorem add_new_staged (env : Env) (s : State) (filename content : String)
    (h : s.fs filename = some content) (hst : filename ∉ s.stagedFiles) :
    (add env s filename).stagedFiles = filename :: s.stagedFiles := by
  by_cases hw : env.canOpen (blobPath (computeHash content)) = true <;>
    simp [add, readFile, h, hst, writeBlob, hw, insertStaged]

theorem add_new_fs (env : Env) (s : State) (filename content : String)
    (h : s.fs filename = some content) (hst : filename ∉ s.stagedFiles)
    (hw : env.canOpen (blobPath (computeHash content)) = true) :
    (add env s filename).fs (blobPath (computeHash content)) = some content := by
  simp [add, readFile, h, hst, writeBlob, hw]

/-! ## The checks of checkout -/

/-- The checks of `checkout`: a call with a name whose ref path cannot be opened for
input, or whose ref names on its first line a hash whose record path cannot be opened
for input, only reports the failure: the disk (working files, HEAD), the head hash and the staging
set stay as they are.  When both paths can be opened, a restore loop that
ends with an exception leaves the head hash as it was, and HEAD too unless HEAD is one
of the tracked paths; a restore loop that runs to its end is followed by the head hash
becoming the hash in the ref and, when HEAD can be opened for output, by HEAD holding
`ref: refs/<name>`. -/
theorem checkout_rejects (env : Env) (s : State) (name : String) :
    (s.fs (refPath name) = none →
      checkout env s name = .returned (s.printErr ("Branch not found: " ++ name ++ "\n")) ∧
      (checkout env s name).state.fs = s.fs ∧
      (checkout env s name).state.headHash = s.headHash ∧
      (checkout env s name).state.stagedFiles = s.stagedFiles) ∧
    (∀ refText, s.fs (refPath name) = some refText →
      s.fs (commitPath (firstLine refText)) = none →
      checkout env s name =
        .returned (s.printErr ("Commit not found: " ++ firstLine refText ++ "\n")) ∧
      (checkout env s name).state.fs = s.fs ∧
      (checkout env s name).state.headHash = s.headHash ∧
      (checkout env s name).state.stagedFiles = s.stagedFiles) ∧
    (∀ refText record s1 what, s.fs (refPath name) = some refText →
      s.fs (commitPath (firstLine refText)) = some record →
      restoreFiles env (checkoutFiles false (getlines record)) s = .threw s1 what →
      checkout env s name = .threw s1 what ∧ s1.headHash = s.headHash ∧
      s1.stagedFiles = s.stagedFiles ∧
      (headPath ∉ checkoutFiles false (getlines record) → s1.fs headPath = s.fs headPath)) ∧
    (∀ refText record s1, s.fs (refPath name) = some refText →
      s.fs (commitPath (firstLine refText)) = some record →
      restoreFiles env (checkoutFiles false (getlines record)) s = .returned s1 →
      (checkout env s name).isReturned = true ∧
      (checkout env s name).state.headHash = firstLine refText ∧
      (checkout env s name).state.stagedFiles = s.stagedFiles ∧
      (env.canOpen headPath = true →
        (checkout env s name).state.fs headPath = some ("ref: refs/" ++ name ++ "\n"))) := by
  refine ⟨?_, ?_, ?_, ?_⟩
  · intro href
    have e : checkout env s name =
        .returned (s.printErr ("Branch not found: " ++ name ++ "\n")) := by
      simp only [checkout, href]
    rw [e]
    exact ⟨rfl, rfl, rfl, rfl⟩
  · intro refText href hrec
    have e : checkout env s name =
        .returned (s.printErr ("Commit not found: " ++ firstLine refText ++ "\n")) := by
      simp only [checkout, href, hrec]
    rw [e]
    exact ⟨rfl, rfl, rfl, rfl⟩
  · intro refText record s1 what href hrec hres
    have hf := restoreFiles_fields env (checkoutFiles false (getlines record)) s
    rw [hres] at hf
    refine ⟨?_, hf.2, hf.1, fun hnot => ?_⟩
    · rw [checkout_found env s name refText record href hrec, hres]
    · have := restoreFiles_fs_of_not_mem env headPath _ s hnot
      rw [hres] at this
      exact this
  · intro refText record s1 href hrec hres
    have hf := restoreFiles_fields env (checkoutFiles false (getlines record)) s
    rw [hres] at hf
    rw [checkout_found env s name refText record href hrec, hres]
    refine ⟨rfl, rfl, ?_, fun hw => ?_⟩
    · by_cases hw : env.canOpen headPath = true
      · simpa [Outcome.state, hw] using hf.1
      · simpa [Outcome.state, hw] using hf.1
    · simp [Outcome.state, hw]

/-- In the two-commit scenario `checkout("nowhere")` is rejected. -/
theorem checkout_rejects_example :
    checkout (envOf lengthHash) (twoCommits (envOf lengthHash) 100 200) "nowhere" =
      .returned ((twoCommits (envOf lengthHash) 100 200).printErr
        "Branch not found: nowhere\n") :=
  ((checkout_rejects (envOf lengthHash) (twoCommits (envOf lengthHash) 100 200)
    "nowhere").1 (by decide)).1

/-! ## C18: two paths with the same bytes -/

/-- A file that holds the bytes that `add` is handed still holds them afterwards. -/
theorem add_keeps_content (env : Env) (s : State) (filename content q : String)
    (h : s.fs filename = some content) (hq : s.fs q = some content) :
    (add env s filename).fs q = some content := by
  by_contra hne
  exact hne (add_fs_change env s filename content h q (by rw [hq]; exact hne)).2

/-- C18 (amended): when two different paths hold the same bytes, `add` of both changes
the disk at most in one place, the object keyed by the checksum of those bytes, which
then holds the bytes; both paths are staged afterwards.  The object is stored when one
of the two paths was not staged before and the object can be opened for output; when
both paths were staged already, the two calls leave the disk as it was. -/
theorem add_same_bytes (env : Env) (s : State) (p1 p2 bytes : String) (hne : p1 ≠ p2)
    (h1 : s.fs p1 = some bytes) (h2 : s.fs p2 = some bytes) :
    (∀ p, (add env (add env s p1) p2).fs p ≠ s.fs p →
      p = blobPath (computeHash bytes) ∧ (add env (add env s p1) p2).fs p = some bytes) ∧
    p1 ∈ (add env (add env s p1) p2).stagedFiles ∧
    p2 ∈ (add env (add env s p1) p2).stagedFiles ∧
    (env.canOpen (blobPath (computeHash bytes)) = true →
      p1 ∉ s.stagedFiles ∨ p2 ∉ s.stagedFiles →
      (add env (add env s p1) p2).fs (blobPath (computeHash bytes)) = some bytes) ∧
    (p1 ∈ s.stagedFiles → p2 ∈ s.stagedFiles → (add env (add env s p1) p2).fs = s.fs) := by
  have h2' : (add env s p1).fs p2 = some bytes := add_keeps_content env s p1 bytes p2 h1 h2
  have hst1 : p1 ∈ (add env s p1).stagedFiles := add_staged env s p1 bytes h1
  refine ⟨?_, ?_, add_staged env _ p2 bytes h2', ?_, ?_⟩
  · intro p hp
    by_cases hc : (add env (add env s p1) p2).fs p = (add env s p1).fs p
    · rw [hc] at hp ⊢
      exact add_fs_change env s p1 bytes h1 p hp
    · exact add_fs_change env _ p2 bytes h2' p hc
  · by_cases hst : p2 ∈ (add env s p1).stagedFiles
    · rw [add_of_staged env _ p2 bytes h2' hst]; exact hst1
    · rw [add_new_staged env _ p2 bytes h2' hst]
      exact List.mem_cons_of_mem _ hst1
  · intro hw hor
    rcases hor with hn | hn
    · have hb : (add env s p1).fs (blobPath (computeHash bytes)) = some bytes :=
        add_new_fs env s p1 bytes h1 hn hw
      exact add_keeps_content env _ p2 bytes _ h2' hb
    · have hn' : p2 ∉ (add env s p1).stagedFiles := by
        intro hmem
        rcases add_stagedFiles env s p1 p2 hmem with e | e
        · exact hne e.symm
        · exact hn e
      exact add_new_fs env _ p2 bytes h2' hn' hw
  · intro hs1 hs2
    have e1 := add_of_staged env s p1 bytes h1 hs1
    rw [add_of_staged env _ p2 bytes h2' (by rw [e1]; exact hs2), e1]
    rfl

/-- C18 (witness): `a.txt` and `b.txt`, both holding `hello`. -/
theorem add_same_bytes_witness :
    (add (envOf lengthHash) (add (envOf lengthHash)
      (fresh (helloDisk.write "b.txt" "hello")) "a.txt") "b.txt").fs (blobPath "532") =
        some "hello" :=
  (add_same_bytes (envOf lengthHash) (fresh (helloDisk.write "b.txt" "hello")) "a.txt" "b.txt"
    "hello" (by decide) (by decide) (by decide)).2.2.2.1 rfl (Or.inl (by decide))

/-! ## The commit that merge makes when its loop runs to the end -/

/-- The merge loop keeps the head, and its staging set is the old one together with
the paths it has processed. -/
theorem mergeLoop_fields (env : Env) : ∀ (files : List String) (s s1 : State),
    mergeLoop env files s = .returned s1 →
    s1.headHash = s.headHash ∧
    (∀ f ∈ files, f ∈ s1.stagedFiles) ∧
    (∀ f ∈ s.stagedFiles, f ∈ s1.stagedFiles) := by
  intro files
  induction files with
  | nil =>
    intro s s1 hret
    simp only [mergeLoop, Outcome.returned.injEq] at hret
    subst hret
    exact ⟨rfl, fun f hf => by simp at hf, fun f hf => hf⟩
  | cons file rest ih =>
    intro s s1 hret
    have hfields := mergeFile_fields env s file
    unfold mergeLoop at hret
    cases hm : mergeFile env s file with
    | threw s2 what => rw [hm] at hret; cases hret
    | returned s2 =>
      rw [hm] at hret hfields
      simp only [Outcome.state] at hfields
      simp only [] at hret
      obtain ⟨h1, h2, h3⟩ := ih _ s1 hret
      have hins : ∀ g, g = file ∨ g ∈ s2.stagedFiles → g ∈ insertStaged file s2.stagedFiles := by
        intro g hg
        unfold insertStaged
        split
        · rcases hg with e | e
          · rw [e]; assumption
          · exact e
        · rcases hg with e | e
          · rw [e]; exact List.mem_cons_self _ _
          · exact List.mem_cons_of_mem _ e
      refine ⟨h1.trans hfields.2, ?_, ?_⟩
      · intro f hf
        rcases List.mem_cons.1 hf with e | e
        · exact h3 f (hins f (Or.inl e))
        · exact h2 f e
      · intro f hf
        exact h3 f (hins f (Or.inr (hfields.1 ▸ hf)))

/-- When the merge loop has run through the paths of the branch's snapshot, of which
there is at least one, every processed path is in the staging set, and `merge` then
calls `commit` with the message `Merged branch: <name>`: the commit it makes has the
head hash before the merge as parent and every path of the snapshot in its path list,
the head hash becomes its hash and the staging set is empty afterwards; its record is
on disk whenever the record file can be opened for output. -/
theorem merge_commits (env : Env) (s s1 : State) (branchName : String) (now : Int)
    (refText record : String) (href : s.fs (refPath branchName) = some refText)
    (hrec : s.fs (commitPath (firstLine refText)) = some record)
    (hloop : mergeLoop env (mergeFiles false (getlines record)) s = .returned s1)
    (hne : mergeFiles false (getlines record) ≠ []) :
    (∀ f ∈ mergeFiles false (getlines record), f ∈ s1.stagedFiles) ∧
    merge env s branchName now =
      .returned (commit env s1 ("Merged branch: " ++ branchName) now) ∧
    (newCommit env s1 ("Merged branch: " ++ branchName) now).message =
      "Merged branch: " ++ branchName ∧
    (newCommit env s1 ("Merged branch: " ++ branchName) now).parentHash = s.headHash ∧
    (∀ f ∈ mergeFiles false (getlines record),
      f ∈ (newCommit env s1 ("Merged branch: " ++ branchName) now).stagedFiles) ∧
    (merge env s branchName now).state.headHash =
      (newCommit env s1 ("Merged branch: " ++ branchName) now).hash ∧
    (merge env s branchName now).state.stagedFiles = [] ∧
    (env.canOpen (commitPath (newCommit env s1 ("Merged branch: " ++ branchName) now).hash)
        = true →
      (merge env s branchName now).state.fs
          (commitPath (newCommit env s1 ("Merged branch: " ++ branchName) now).hash) =
        some (commitRecord (newCommit env s1 ("Merged branch: " ++ branchName) now))) := by
  obtain ⟨hh, hall, -⟩ := mergeLoop_fields env _ s s1 hloop
  have hm : merge env s branchName now =
      .returned (commit env s1 ("Merged branch: " ++ branchName) now) := by
    simp only [merge, href, hrec, hloop]
  have hst : s1.stagedFiles ≠ [] := by
    cases hfiles : mergeFiles false (getlines record) with
    | nil => exact absurd hfiles hne
    | cons f rest =>
      intro e
      have := hall f (by rw [hfiles]; exact List.mem_cons_self _ _)
      rw [e] at this
      cases this
  refine ⟨hall, hm, rfl, hh, hall, ?_, ?_, ?_⟩
  · rw [hm]; simp [Outcome.state, commit, hst]
  · rw [hm]; simp [Outcome.state, commit, hst]
  · intro hw
    rw [hm]
    simp only [Outcome.state]
    unfold commit saveCommit
    by_cases hw2 : env.canOpen headPath = true
    · simp [hst, hw, hw2, FS.write_of_ne _ _ (commitPath_ne_headPath _)]
    · simp [hst, hw, hw2]

/-- In the two-commit scenario `merge("feature")` makes commit `327`, whose parent is the
head `211` and whose path list holds `a.txt`. -/
theorem merge_commits_example :
    (merge (envOf lengthHash) (twoCommits (envOf lengthHash) 100 200) "feature" 300).state.fs
        (commitPath "327") =
      some "Message: Merged branch: feature\nTimestamp: 300\nParent: 211\nFiles:\na.txt\n" :=
  (merge_commits (envOf lengthHash) (twoCommits (envOf lengthHash) 100 200)
    (mergeLoop (envOf lengthHash) ["a.txt"] (twoCommits (envOf lengthHash) 100 200)).state
    "feature" 300 "110" "Message: first\nTimestamp: 100\nParent: \nFiles:\na.txt\n"
    (by decide) (by decide) rfl (by decide)).2.2.2.2.2.2.2 rfl

/-! ## C19: checkout and the fingerprints of the working files -/

theorem checkoutFiles_paths (files : List String)
    (hf : ∀ f ∈ files, f ≠ "" ∧ f ≠ "Files:") : checkoutFiles true files = files := by
  induction files with
  | nil => rfl
  | cons f rest ih =>
    obtain ⟨h1, h2⟩ := hf f (List.mem_cons_self _ _)
    simp [checkoutFiles, h1, h2, ih (fun g hg => hf g (List.mem_cons_of_mem _ hg))]

/-- C20 (counterexample): from the record of a commit whose only path is the file name
`Files:`, `checkout` reads back no path at all; and from the record of a commit over
`a.txt` whose parent hash holds line breaks it reads back one path more. -/
theorem record_roundtrip_counterexample :
    ¬ (checkoutFiles false (getlines (commitRecord
        { hash := "", message := "m", timestamp := 7, stagedFiles := ["Files:"],
          parentHash := "" })) = ["Files:"]) ∧
    checkoutFiles false (getlines (commitRecord
        { hash := "", message := "m", timestamp := 7, stagedFiles := ["Files:"],
          parentHash := "" })) = [] ∧
    checkoutFiles false (getlines (commitRecord
        { hash := "", message := "m", timestamp := 7, stagedFiles := ["a.txt"],
          parentHash := "1\nFiles:\nx" })) = ["x", "a.txt"] := by
  decide

/-- C20 (amended): for every commit whose message, parent hash and paths contain no
line break and whose paths are neither empty nor the string `Files:`, the path list
that `checkout` reads from the record written by `saveCommit` is the path list of the
commit, in the same order. -/
theorem record_roundtrip (c : Commit) (hm : NoNL c.message) (hp : NoNL c.parentHash)
    (hf : ∀ f ∈ c.stagedFiles, NoNL f ∧ f ≠ "" ∧ f ≠ "Files:") :
    checkoutFiles false (getlines (commitRecord c)) = c.stagedFiles := by
  rw [checkoutFiles_commitRecord c hm hp (fun f h => (hf f h).1),
    checkoutFiles_paths _ (fun f h => (hf f h).2)]

/-- C20 (witness): a commit over `b.txt` and `a.txt` with parent `110`. -/
theorem record_roundtrip_witness :
    checkoutFiles false (getlines (commitRecord
        { hash := "211", message := "second", timestamp := 200,
          stagedFiles := ["b.txt", "a.txt"], parentHash := "110" })) = ["b.txt", "a.txt"] :=
  record_roundtrip _ (by decide) (by decide) (by decide)

/-! ## The unchecked name of branch -/

theorem components_no_slash : ∀ l : List Char, '/' ∉ l → components l = [l] := by
  intro l
  induction l with
  | nil => intro _; rfl
  | cons c cs ih =>
    intro hl
    simp only [List.mem_cons, not_or] at hl
    simp [components, Ne.symm hl.1, ih hl.2]

/-- The path `refs/../commits/<h>` leads to the record of the commit `h`. -/
theorem normalize_refPath_dotdot (h : String) (hd : IsDecimal h) :
    normalize (refPath ("../commits/" ++ h)) = commitPath h := by
  have hs : '/' ∉ h.data := fun hm => by simpa using hd.2 _ hm
  have hdot : h.data ≠ ['.'] ∧ h.data ≠ ['.', '.'] := by
    constructor <;> intro e <;> have := hd.2 '.' (by rw [e]; simp) <;> simp at this
  have e : (refPath ("../commits/" ++ h)).data =
      ".minigit".data ++ '/' :: ("refs".data ++ '/' :: ("..".data ++ '/' ::
        ("commits".data ++ '/' :: h.data))) := by
    simp [refPath, repoPath]
  unfold normalize
  rw [e, components_append, components_append, components_append, components_append,
    components_no_slash _ hs]
  apply String.ext
  simp [components, resolveDots, hd.1, hdot.1, hdot.2, joinSlash, commitPath, commitsPath]

/-- The model of `branch` at the name `../commits/<h>`: the record of the commit `h` is
replaced by the head hash. -/
theorem branch_overwrites_record (env : Env) (s : State) (h : String) (hd : IsDecimal h)
    (hh : s.headHash ≠ "") (hw : env.canOpen (refPath ("../commits/" ++ h)) = true) :
    (branch env s ("../commits/" ++ h)).fs (commitPath h) = some s.headHash := by
  simp [branch, hh, hw, normalize_refPath_dotdot h hd]

/-! ## C16: a name whose ref path is a directory -/

/-- After `init` the paths `refs/` and `commits/` are opened as empty. -/
theorem init_hello_dirs (hash : String → Nat) :
    (init (envOf hash) (fresh helloDisk)).fs (refPath "") = some "" ∧
    (init (envOf hash) (fresh helloDisk)).fs (commitPath "") = some "" := by
  rw [init_env_congr (envOf hash) (envOf lengthHash) rfl]
  decide

/-- C16 (the code at the failing input): after `init`, `add("a.txt")` and `commit("m")`
no branch has been created, so there is no ref at all, and the head hash is the hash of
the commit.  `checkout("")` is not rejected, whatever `std::hash` and the time of the
commit are: `refs/` and `commits/` are the directories made by `init`, `std::ifstream`
opens both and reads nothing from them, so the two checks pass; the call reports
nothing on `std::cerr`, leaves `ref: refs/` in HEAD and makes the head hash the empty
string. -/
theorem checkout_empty_name (hash : String → Nat) (now : Int) :
    ∃ s', checkout (envOf hash) (firstCommit (envOf hash) now) "" = .returned s' ∧
      IsDecimal (firstCommit (envOf hash) now).headHash ∧
      s'.headHash = "" ∧
      s'.fs headPath = some "ref: refs/\n" ∧
      s'.cerr = (firstCommit (envOf hash) now).cerr := by
  have hw := envOf_canOpen hash
  obtain ⟨hr, hc⟩ := init_hello_dirs hash
  generalize hs1 : add (envOf hash) (init (envOf hash) (fresh helloDisk)) "a.txt" = s1
  have hst1 : s1.stagedFiles ≠ [] := by
    intro e
    have := add_staged (envOf hash) (init (envOf hash) (fresh helloDisk)) "a.txt" "hello"
      (by rw [init_hello_fs _ _ (by decide) (by decide)]; rfl)
    rw [hs1, e] at this
    cases this
  have hr1 : s1.fs (refPath "") = some "" := by
    rw [← hs1, add_fs_of_ne _ _ _ _ (fun g => (blobPath_ne_refPath g "").symm)]; exact hr
  have hc1 : s1.fs (commitPath "") = some "" := by
    rw [← hs1, add_fs_of_ne _ _ _ _ (fun g => commitPath_ne_blobPath "" g)]; exact hc
  have hd : IsDecimal (newCommit (envOf hash) s1 "m" now).hash := newCommit_hash _ _ _ _
  have hfc : firstCommit (envOf hash) now = commit (envOf hash) s1 "m" now := by
    simp only [firstCommit, hs1]
  have hhead : (firstCommit (envOf hash) now).headHash =
      (newCommit (envOf hash) s1 "m" now).hash := by
    rw [hfc]; exact (commit_made _ _ _ _ hst1 (hw _)).2.1
  have hr2 : (firstCommit (envOf hash) now).fs (refPath "") = some "" := by
    rw [hfc, commit_fs_of_ne _ _ _ _ _ (refPath_ne_headPath _) (commitPath_ne_refPath _ _).symm]
    exact hr1
  have hc2 : (firstCommit (envOf hash) now).fs (commitPath (firstLine "")) = some "" := by
    have e : firstLine "" = "" := by decide
    rw [e, hfc, commit_fs_of_ne _ _ _ _ _ (commitPath_ne_headPath _)
      (fun e => isDecimal_ne_empty hd (commitPath_inj.1 e).symm)]
    exact hc1
  have e : checkoutFiles false (getlines "") = [] := by decide
  have e' : firstLine "" = "" := by decide
  rw [checkout_found _ _ _ _ _ hr2 hc2, e, e']
  simp only [restoreFiles, envOf_canOpen, if_true]
  exact ⟨_, rfl, hhead ▸ hd, rfl, by simp, rfl⟩

/-! ## C6 and C18: paths that are staged already -/

/-- C6 (counterexample): after `init`, staging `a.txt` with the content `hello` and
overwriting it with `world`, the path is staged and its file exists; two calls of
`add("a.txt")` in a row then leave no object for the bytes of the file, whatever
`std::hash` is: both calls find the path staged and store nothing. -/
theorem add_twice_counterexample :
    ¬ ∃ hash : String → Nat,
      (add (envOf hash) (restaged (envOf hash)) "a.txt").fs (blobPath (computeHash "world")) =
        some "world" := by
  rintro ⟨hash, h⟩
  have e : add (envOf hash) (restaged (envOf hash)) "a.txt" =
      add (envOf lengthHash) (restaged (envOf lengthHash)) "a.txt" := by
    simp only [restaged]
    rw [init_env_congr (envOf hash) (envOf lengthHash) rfl,
      add_env_congr (envOf hash) (envOf lengthHash) rfl,
      add_env_congr (envOf hash) (envOf lengthHash) rfl,
      add_env_congr (envOf hash) (envOf lengthHash) rfl]
  rw [e] at h
  exact absurd h (by decide)

/-- C18 (counterexample): after `init` the paths `a.txt` and `b.txt` are staged with
the content `hello` and both files are overwritten with `world`; the two files hold
identical bytes, but `add` of both stores nothing under `computeHash("world")`, whatever
`std::hash` is: both calls find their path staged. -/
theorem add_same_bytes_counterexample :
    ¬ ∃ hash : String → Nat,
      (add (envOf hash) (add (envOf hash) (bothStaged (envOf hash)) "a.txt") "b.txt").fs
          (blobPath (computeHash "world")) = some "world" := by
  rintro ⟨hash, h⟩
  have e : add (envOf hash) (add (envOf hash) (bothStaged (envOf hash)) "a.txt") "b.txt" =
      add (envOf lengthHash) (add (envOf lengthHash) (bothStaged (envOf lengthHash)) "a.txt")
        "b.txt" := by
    simp only [bothStaged]
    rw [init_env_congr (envOf hash) (envOf lengthHash) rfl,
      add_env_congr (envOf hash) (envOf lengthHash) rfl,
      add_env_congr (envOf hash) (envOf lengthHash) rfl,
      add_env_congr (envOf hash) (envOf lengthHash) rfl,
      add_env_congr (envOf hash) (envOf lengthHash) rfl]
  rw [e] at h
  exact absurd h (by decide)

/-! ## C17: a path of the snapshot that is not conflicted -/

theorem merge_env_congr_mixed (hash : String → Nat) (now : Int) :
    merge (envOf hash) (fresh mixedDisk) "feature" now =
      mergeLoop (envOf hash) ["a.txt", "b.txt"] (fresh mixedDisk) := by
  have href : (fresh mixedDisk).fs (refPath "feature") = some "7" := by decide
  have hrec : (fresh mixedDisk).fs (commitPath (firstLine "7")) =
      some "Message: first\nTimestamp: 100\nParent: \nFiles:\na.txt\nb.txt\n" := by decide
  have hfiles : mergeFiles false
      (getlines "Message: first\nTimestamp: 100\nParent: \nFiles:\na.txt\nb.txt\n") =
        ["a.txt", "b.txt"] := by decide
  simp only [merge, href, hrec, hfiles]
  cases h : mergeLoop (envOf hash) ["a.txt", "b.txt"] (fresh mixedDisk) with
  | threw s what => rfl
  | returned s =>
    exfalso
    have hm : (mergeLoop (envOf lengthHash) ["a.txt", "b.txt"] (fresh mixedDisk)).isReturned
        = false := by decide
    have hcongr : mergeLoop (envOf hash) ["a.txt", "b.txt"] (fresh mixedDisk) =
        mergeLoop (envOf lengthHash) ["a.txt", "b.txt"] (fresh mixedDisk) := rfl
    rw [← hcongr, h] at hm
    cases hm


/-- C17 (the code at the failing input): a path of the snapshot that is not conflicted,
that is, absent from the working tree, is not added to the staging set, and no commit
is made.  In every state the turn of the merge loop for an absent path throws before
`stagedFiles.insert(file)`.  On the disk `mixedDisk`, where the snapshot of `feature`
lists `a.txt`, which exists, and `b.txt`, which does not, `merge("feature")` ends with
the exception `File not found: b.txt`, whatever `std::hash` and the time are: `a.txt`
has been staged, `b.txt` has not, the staging set is not emptied and the head hash is
still empty, so no commit has been made. -/
theorem merge_unconflicted_throws :
    (∀ (env : Env) (s : State) (file : String) (rest : List String), s.fs file = none →
      mergeLoop env (file :: rest) s = .threw s ("File not found: " ++ file)) ∧
    ∀ (hash : String → Nat) (now : Int), ∃ s',
      merge (envOf hash) (fresh mixedDisk) "feature" now = .threw s' "File not found: b.txt" ∧
      s'.stagedFiles = ["a.txt"] ∧ s'.headHash = "" ∧
      s'.cout = ["CONFLICT: both modified a.txt\n", "Conflict written to a.txt.conflict\n"] := by
  refine ⟨fun env s file rest h => ?_, fun hash now => ?_⟩
  · simp only [mergeLoop, mergeFile_absent env s file h]
  · rw [merge_env_congr_mixed]
    have hcongr : mergeLoop (envOf hash) ["a.txt", "b.txt"] (fresh mixedDisk) =
        mergeLoop (envOf lengthHash) ["a.txt", "b.txt"] (fresh mixedDisk) := rfl
    rw [hcongr]
    have hwhat : (match mergeLoop (envOf lengthHash) ["a.txt", "b.txt"] (fresh mixedDisk) with
        | .threw _ what => decide (what = "File not found: b.txt")
        | .returned _ => false) = true := by decide
    have h1 : (mergeLoop (envOf lengthHash) ["a.txt", "b.txt"]
        (fresh mixedDisk)).state.stagedFiles = ["a.txt"] := by decide
    have h2 : (mergeLoop (envOf lengthHash) ["a.txt", "b.txt"]
        (fresh mixedDisk)).state.headHash = "" := by decide
    have h3 : (mergeLoop (envOf lengthHash) ["a.txt", "b.txt"]
        (fresh mixedDisk)).state.cout =
          ["CONFLICT: both modified a.txt\n", "Conflict written to a.txt.conflict\n"] := by
      decide
    cases h : mergeLoop (envOf lengthHash) ["a.txt", "b.txt"] (fresh mixedDisk) with
    | returned s => rw [h] at hwhat; cases hwhat
    | threw s what =>
      rw [h] at hwhat h1 h2 h3
      simp only [decide_eq_true_eq] at hwhat
      exact ⟨s, by rw [hwhat], h1, h2, h3⟩

/-! ## The empty branch name -/

set_option maxRecDepth 4000 in
/-- The model at the empty branch name: after `init` the path `refs/` is a directory, so
`merge("")` finds an empty snapshot and commits what is staged, under a hash that does
not depend on the parent.  Two such merges of `a.txt` within one second give a record
that is its own parent, on which the walk of `log` is still running after eight
commits; the second merge is not admissible. -/
theorem merge_empty_name_example :
    (log 8 (run (envOf lengthHash) (init (envOf lengthHash) (fresh helloDisk))
      [.add "a.txt", .merge "" 100, .add "a.txt", .merge "" 100]).state).isSome = false ∧
    admissibleRun 5 (envOf lengthHash) (init (envOf lengthHash) (fresh helloDisk))
      [.add "a.txt", .merge "" 100, .add "a.txt", .merge "" 100] = false := by
  decide

end MiniGit
